import Mathlib

/-!
rtq-go-endpoint: feedback inference, telemetry recorder and rate adaptation.

A shallow embedding of

* `rtc/feedback_inferer.go` (time base, acknowledgment collector, instrumented writer),
* `internal/utils/rtp_log_interceptor.go` (telemetry recorder),
* `udp/sender.go` (`gstWriter.acceptFeedback`: feedback-read loop and rate adaptation),

followed by the properties established about them.

Conventions.  Go's fixed-width integers are modelled by `Nat`/`Int`, with an explicit reduction
where the code masks or may wrap.  A finite `float64` is modelled by the rational number it
denotes, every arithmetic operation being followed by IEEE-754 binary64 round-to-nearest-even
(each operation rounded on its own, as the Go compiler does on amd64 where no fused multiply-add
is generated); infinities and NaN are not modelled.  Channels are modelled by the sequence of
events a `select` loop takes from them, and goroutines by a small-step interleaving semantics.
-/

namespace float64

/-- Two to the power `e`, for an integer exponent. -/
def pow2 (e : Int) : ℚ :=
  if 0 ≤ e then ((2 ^ e.toNat : Nat) : ℚ) else 1 / ((2 ^ (-e).toNat : Nat) : ℚ)

/-- Binary logarithm of a natural number, rounded down, computed by halving (at most `fuel`
times). -/
def log2Aux : Nat → Nat → Nat
  | 0, _ => 0
  | fuel + 1, n => if n < 2 then 0 else log2Aux fuel (n / 2) + 1

/-- Binary logarithm of a positive natural number, rounded down. -/
def log2 (n : Nat) : Nat := log2Aux n n

/-- Exponent of the binade of a positive rational: the largest `e` with `2^e ≤ q`. -/
def floorLog2 (q : ℚ) : Int :=
  let k : Int := (log2 q.num.natAbs : Int) - (log2 q.den : Int)
  if pow2 k ≤ q then k else k - 1

/-- Round to the nearest integer, ties to the even one. -/
def roundHalfEven (x : ℚ) : Int :=
  let f : Int := x.num / (x.den : Int)
  let r : ℚ := x - (f : ℚ)
  if 2 * r < 1 then f
  else if 1 < 2 * r then f + 1
  else if f % 2 = 0 then f else f + 1

/-- Spacing of binary64 numbers around `q`: 53 significant bits, and the fixed spacing `2^-1074`
below the smallest normal number `2^-1022`. -/
def ulp (q : ℚ) : ℚ := pow2 (max (floorLog2 |q|) (-1022) - 52)

/-- IEEE-754 binary64 rounding of a real result, round-to-nearest, ties-to-even.  The exponent
range is not bounded above: a result of magnitude `2^1024` or more stands for an infinity, which
the only consumer of such values here (`toUint64`) does not convert to a defined integer. -/
def round (q : ℚ) : ℚ :=
  if q = 0 then 0 else (roundHalfEven (q / ulp q) : ℚ) * ulp q

/-- Go's `x + y` on `float64`. -/
def add (x y : ℚ) : ℚ := round (x + y)

/-- Go's `x - y` on `float64`. -/
def sub (x y : ℚ) : ℚ := round (x - y)

/-- Go's `x * y` on `float64`. -/
def mul (x y : ℚ) : ℚ := round (x * y)

/-- Go's `float64(n)` for an integer `n`. -/
def ofInt (n : Int) : ℚ := round (n : ℚ)

/-- Go's conversion `uint64(x)` of a `float64`: the fraction is discarded.  When the truncated
value is not representable in 64 bits the Go specification leaves the result to the
implementation; that case is `none`. -/
def toUint64 (x : ℚ) : Option Nat :=
  if -1 < x ∧ x < 18446744073709551616 then some (x.num.tdiv (x.den : Int)).toNat else none

/-- The `float64` constant `1e-6`: the binary64 number nearest to one millionth. -/
def c1em6 : ℚ := round (1 / 1000000)

/-- The `float64` constant `1e-3`. -/
def c1em3 : ℚ := round (1 / 1000)

end float64

namespace rtc

/-- Go's `time.Time`, as nanoseconds since the Unix epoch. -/
abbrev Time := Int

/-- Go's `time.Duration`, in nanoseconds. -/
abbrev Duration := Int

/-- `t.Unix()`: whole seconds since the Unix epoch (rounded down). -/
def Time.Unix (t : Time) : Int := t / 1000000000

/-- `t.UnixMicro()`: whole microseconds since the Unix epoch. -/
def Time.UnixMicro (t : Time) : Int := Time.Unix t * 1000000 + (t % 1000000000) / 1000

/-- `t.Add(d)`. -/
def Time.Add (t : Time) (d : Duration) : Time := t + d

/-- The expression `float64(secs) + float64(usecs)*1e-6`, with `secs := t.Unix()` and
`usecs := t.UnixMicro() - secs*1e6`, that `getNTPT0` and `getTimeBetweenNTP` both evaluate. -/
def unixSeconds (t : Time) : ℚ :=
  let secs := Time.Unix t
  let usecs := Time.UnixMicro t - secs * 1000000
  float64.add (float64.ofInt secs) (float64.mul (float64.ofInt usecs) float64.c1em6)

/-- Embedding of `getNTPT0`, with the reading of the clock (`time.Now()`) as argument. -/
def getNTPT0 (now : Time) : ℚ :=
  float64.sub (unixSeconds now) float64.c1em3

/-- The local variable `tt` of `getTimeBetweenNTP`: the seconds elapsed from `t0` to `tx`, as
computed in `float64`. -/
def elapsed (t0 : ℚ) (tx : Time) : ℚ :=
  float64.sub (unixSeconds tx) t0

/-- Embedding of `getTimeBetweenNTP`. -/
def getTimeBetweenNTP (t0 : ℚ) (tx : Time) : Option Nat :=
  let tt := elapsed t0 tx
  let ntp64 := float64.toUint64 (float64.mul tt 65536)
  ntp64.map (fun n => Nat.land 0xFFFFFFFF n)

/-- The seconds from `t0` to `tx` in exact arithmetic, `tx` taken at microsecond resolution. -/
def exactElapsed (t0 : ℚ) (tx : Time) : ℚ := (Time.UnixMicro tx : ℚ) / 1000000 - t0

/-- The fixed-point time as the specification words it, in exact arithmetic:
`floor((t - t0) * 65536) mod 2^32`. -/
def fixedPointOfExactElapsed (t0 : ℚ) (tx : Time) : Int :=
  ⌊exactElapsed t0 tx * 65536⌋ % 4294967296

/-- Embedding of `fbInferer.ackedPkt`; `ssrc` is a `uint32`, `seqNr` a `uint16`, `size` an `int`. -/
structure ackedPkt where
  receiveTS : Time
  ssrc : Nat
  size : Int
  seqNr : Nat
deriving DecidableEq, Repr

/-- One call made on the reception model `screamcgo.Rx` (an external library). -/
inductive RxCall where
  | Receive (ntp : Option Nat) (ssrc : Nat) (size : Int) (seqNr : Nat) (ceBits : Nat)
  | CreateStandardizedFeedback (ntp : Option Nat) (isMark : Bool)
deriving DecidableEq, Repr

/-- The fields of `fbInferer` that are plain data.  The reception model `rx` is an external
stateful object: it is represented by the answer its `CreateStandardizedFeedback` gives after a
given history of calls (the last call of the history being the query itself).  The channels
`acked` and `received` are part of the state of the loop (`bufferState`). -/
structure fbInferer where
  rx : List RxCall → Bool × List Nat
  rtt : Duration
  t0 : ℚ

/-- Embedding of `newFBInferer`, with the reading of the clock as argument: `rtt` is left at its
zero value. -/
def newFBInferer (rx : List RxCall → Bool × List Nat) (now : Time) : fbInferer :=
  { rx := rx, rtt := 0, t0 := getNTPT0 now }

/-- Embedding of `fbInferer.ntpTime`. -/
def fbInferer.ntpTime (f : fbInferer) (t : Time) : Option Nat := getTimeBetweenNTP f.t0 t

/-- Inner loop of Go's insertion sort (`for j := i; j > a && less(j, j-1); j-- { swap(j, j-1) }`):
the new element `x` moves left past every neighbour it is less than.  The second argument is the
part of the slice to the left of `x`, nearest neighbour first. -/
def insertLeft {α : Type} (less : α → α → Bool) (x : α) : List α → List α
  | [] => [x]
  | y :: rest => if less x y then y :: insertLeft less x rest else x :: y :: rest

/-- Go's `insertionSortLessFunc` over a whole slice. -/
def insertionSortLessFunc {α : Type} (less : α → α → Bool) (data : List α) : List α :=
  (data.foldl (fun sortedRev x => insertLeft less x sortedRev) []).reverse

/-- Model of the library function `sort.Slice(x, less)`.  The library documents that it sorts `x`
by `less` and that the sort is not stable; it is modelled by insertion sort.  The library may
order elements that `less` does not distinguish differently; the order of the keys is the same
for every implementation. -/
def sortSlice {α : Type} (less : α → α → Bool) (x : List α) : List α :=
  insertionSortLessFunc less x

/-- What the `select` of `fbInferer.buffer` can take in one iteration. -/
inductive Event where
  | acked (pkt : ackedPkt)
  | tick
  | cancel
deriving DecidableEq, Repr

/-- State of the loop `fbInferer.buffer`: the local slice `buf`, the calls made so far on the
reception model, the feedback reports sent so far on the channel `received` (oldest first), and
whether the loop has returned. -/
structure bufferState where
  buf : List ackedPkt
  rxCalls : List RxCall
  received : List (List Nat)
  returned : Bool
deriving DecidableEq, Repr

/-- State of the loop when `fbInferer.buffer` is entered. -/
def bufferState.init : bufferState :=
  { buf := [], rxCalls := [], received := [], returned := false }

/-- The calls `f.rx.Receive(f.ntpTime(pkt.receiveTS), pkt.ssrc, pkt.size, pkt.seqNr, 0)` made by
the `for _, pkt := range buf` loop. -/
def receiveCalls (f : fbInferer) (buf : List ackedPkt) : List RxCall :=
  buf.map (fun pkt => RxCall.Receive (f.ntpTime pkt.receiveTS) pkt.ssrc pkt.size pkt.seqNr 0)

/-- One iteration of the `for { select { ... } }` of `fbInferer.buffer`. -/
def bufferStep (f : fbInferer) (s : bufferState) (e : Event) : bufferState :=
  if s.returned then s else
  match e with
  | Event.acked pkt => { s with buf := s.buf ++ [pkt] }
  | Event.tick =>
    if s.buf.length = 0 then s
    else
      let sorted := sortSlice (fun a b => decide (a.seqNr < b.seqNr)) s.buf
      let calls := s.rxCalls ++ receiveCalls f sorted
      match sorted.getLast? with
      | none => s -- not reached: `sorted` is as long as `buf`
      | some last =>
        let query := RxCall.CreateStandardizedFeedback (f.ntpTime last.receiveTS) true
        let calls := calls ++ [query]
        let (ok, fb) := f.rx calls
        { buf := [], rxCalls := calls,
          received := if ok then s.received ++ [fb] else s.received,
          returned := false }
  | Event.cancel => { s with returned := true }

/-- The loop `fbInferer.buffer` run on a sequence of `select` outcomes. -/
def buffer (f : fbInferer) (events : List Event) : bufferState :=
  events.foldl (bufferStep f) bufferState.init

/-- The calls made on the reception model during a tick taken in state `s`. -/
def callsOnTick (f : fbInferer) (s : bufferState) : List RxCall :=
  (bufferStep f s Event.tick).rxCalls.drop s.rxCalls.length

/-- The loop taking the packets `pkts` from the channel `acked`, one after the other. -/
def enqueueAll (f : fbInferer) (s : bufferState) (pkts : List ackedPkt) : bufferState :=
  (pkts.map Event.acked).foldl (bufferStep f) s

/-- The sequence numbers of the `Receive` calls in a list of calls, in call order. -/
def receivedSeqNrs : List RxCall → List Nat
  | [] => []
  | RxCall.Receive _ _ _ seqNr _ :: rest => seqNr :: receivedSeqNrs rest
  | RxCall.CreateStandardizedFeedback _ _ :: rest => receivedSeqNrs rest

/-- The packets taken from `acked` in a sequence of events, in order. -/
def ackedPkts (events : List Event) : List ackedPkt :=
  events.filterMap (fun e => match e with
    | Event.acked pkt => some pkt
    | _ => none)

/-- The events that follow the last tick of a sequence (all of them when there is no tick). -/
def afterLastTick (events : List Event) : List Event :=
  (events.reverse.takeWhile (fun e => e != Event.tick)).reverse

/-- The events of a sequence up to its last tick, that tick included (none when there is no
tick). -/
def uptoLastTick (events : List Event) : List Event :=
  (events.reverse.dropWhile (fun e => e != Event.tick)).reverse

/-- The `Receive` calls among a list of calls on the reception model, in call order. -/
def receivesOf (calls : List RxCall) : List RxCall :=
  calls.filter (fun c => match c with
    | RxCall.Receive _ _ _ _ _ => true
    | RxCall.CreateStandardizedFeedback _ _ => false)

/-- The relevant part of an `rtp.Header`. -/
structure Header where
  SSRC : Nat
  SequenceNumber : Nat
deriving DecidableEq, Repr

/-- A Go `error` value, observed through what `rtpWriterFunc` asks of it: whether it implements
`net.Error`, what `Temporary()` then answers, and the text `Error()` returns. -/
structure GoError where
  isNetError : Bool
  Temporary : Bool
  Error : String
deriving DecidableEq, Repr

/-- The delivery callback that `rtpWriterFunc` hands to `WriteRTPNotify`, as the list of packets
it sends on `f.acked` (each from a goroutine of its own).  `t` is the `time.Now()` taken before the
write and `n` the value of the variable `n` when the goroutine reads it (the size computed from
the header and payload before `WriteRTPNotify` has returned, the count it returned afterwards). -/
def ackCallback (f : fbInferer) (header : Header) (t : Time) (n : Int) (r : Bool) :
    List ackedPkt :=
  if !r then []
  else
    let arrivalTime := Time.Add t (Int.tdiv f.rtt 2)
    [{ receiveTS := arrivalTime, ssrc := header.SSRC, size := n, seqNr := header.SequenceNumber }]

/-- Embedding of `fbInferer.rtpWriterFunc`.  `WriteRTPNotify` is the transport's write, which
returns a byte count and possibly an error; the delivery callback passed to it is
`ackCallback f header t`, with `t` the clock reading taken before the write.  The result is the
pair `(int, error)` returned to the caller. -/
def rtpWriterFunc (WriteRTPNotify : Header → List Nat → Int × Option GoError)
    (header : Header) (payload : List Nat) : Int × Option GoError :=
  let (n, err) := WriteRTPNotify header payload
  match err with
  | some e =>
    if (e.isNetError && !e.Temporary) || e.Error == "Application error 0x0: eos" then (n, some e)
    else (n, none)
  | none => (n, none)

end rtc

namespace utils

open rtc (GoError Duration)

/-- Go's `interceptor.Attributes`. -/
abbrev Attributes := List (String × String)

/-- The triple `(int, interceptor.Attributes, error)` returned by an `interceptor.RTCPReader`. -/
structure ReadResult where
  n : Int
  attr : Option Attributes
  err : Option GoError
deriving DecidableEq, Repr

/-- Embedding of `rtcpPacket`: a parsed feedback packet (of the external type `rtcp.Packet`,
here `P`) with the time at which it was observed. -/
structure rtcpPacket (P : Type) where
  Packet : P
  receiveTime : Duration
deriving DecidableEq, Repr

/-- Embedding of the reader returned by `RTPLogInterceptor.BindRTCPReader`.  `Unmarshal` is the
external parser `rtcp.Unmarshal`, `since k` the reading `time.Since(r.start)` taken for the
packet of index `k`, `reader` the wrapped reader.  The result is what the reader returns together
with the events it sends on the channel `rtcpIn`, in order. -/
def BindRTCPReader {P : Type} (Unmarshal : List Nat → Except GoError (List P))
    (since : Nat → Duration) (reader : List Nat → Attributes → ReadResult)
    (b : List Nat) (a : Attributes) : ReadResult × List (rtcpPacket P) :=
  let r := reader b a
  match r.err with
  | some err => ({ n := 0, attr := none, err := some err }, [])
  | none =>
    match Unmarshal (b.take r.n.toNat) with
    | Except.error err => ({ n := 0, attr := none, err := some err }, [])
    | Except.ok pkts =>
      ({ n := r.n, attr := r.attr, err := none },
       pkts.enum.map (fun kp => { Packet := kp.2, receiveTime := since kp.1 }))

/-- The verbs `%d` and `%v` of Go's `fmt` applied to an integer: its decimal digits, after a
minus sign when it is negative. -/
def fmtDecimal : Int → String
  | Int.ofNat n => String.mk (Nat.toDigits 10 n)
  | Int.negSucc n => "-" ++ String.mk (Nat.toDigits 10 (n + 1))

/-- The verb `%x` of Go's `fmt` applied to an unsigned integer: its hexadecimal digits, in lower
case. -/
def fmtHex (n : Nat) : String := String.mk (Nat.toDigits 16 n)

/-- Go's `d.Milliseconds()`: `int64(d) / 1e6`, rounded toward zero. -/
def Milliseconds (d : Duration) : Int := Int.tdiv d 1000000

/-- Embedding of `boolToChar`. -/
def boolToChar (b : Bool) : String :=
  if !b then "0" else "1"

/-- Embedding of `rtpPacket`: the fields of the embedded `*rtp.Packet` that are used
(`PayloadType` is a `uint8`, `SSRC` and `Timestamp` are `uint32`, `SequenceNumber` is a `uint16`,
`Payload` a slice of bytes) and the time at which the packet was observed. -/
structure rtpPacket where
  PayloadType : Nat
  SSRC : Nat
  SequenceNumber : Nat
  Timestamp : Nat
  Marker : Bool
  Payload : List Nat
  receiveTime : Duration
deriving DecidableEq, Repr

/-- Embedding of `(*rtpPacket).String`; each `fmt.Sprintf("\t%d", x)` is a tab followed by the
formatted value. -/
def rtpPacket.String (p : rtpPacket) : String :=
  let out := "RTP"
  let out := out ++ ("\t" ++ fmtDecimal (Milliseconds p.receiveTime))
  let out := out ++ ("\t" ++ fmtDecimal p.PayloadType)
  let out := out ++ ("\t" ++ fmtHex p.SSRC)
  let out := out ++ ("\t" ++ fmtDecimal p.SequenceNumber)
  let out := out ++ ("\t" ++ fmtDecimal p.Timestamp)
  let out := out ++ ("\t" ++ boolToChar p.Marker)
  let out := out ++ ("\t" ++ fmtDecimal p.Payload.length)
  out

/-- Embedding of `(*rtcpPacket).String`.  `rawLen` tells whether the packet is a
`*rtcp.RawPacket` and then gives its length in bytes, `typeName` is the text that the verb `%T`
prints for the packet. -/
def rtcpPacket.String {P : Type} (rawLen : P → Option Nat) (typeName : P → String)
    (p : rtcpPacket P) : String :=
  let out := "RTCP"
  let out := out ++ ("\t" ++ fmtDecimal (Milliseconds p.receiveTime))
  match rawLen p.Packet with
  | some n => out ++ ("\t" ++ fmtDecimal n)
  | none => out ++ ("\t" ++ typeName p.Packet)

/-- The four sinks of an `RTPLogInterceptor`. -/
inductive Sink where
  | rtcpInStream
  | rtcpOutStream
  | rtpInStream
  | rtpOutStream
deriving DecidableEq, Repr

/-- A telemetry event that the `select` of `RTPLogInterceptor.loop` takes from one of the four
channels `rtcpIn`, `rtcpOut`, `rtpIn`, `rtpOut`. -/
inductive LoopEvent (P : Type) where
  | rtcpIn (p : rtcpPacket P)
  | rtcpOut (p : rtcpPacket P)
  | rtpIn (p : rtpPacket)
  | rtpOut (p : rtpPacket)

/-- One iteration of `RTPLogInterceptor.loop` on a telemetry event: the sink written to and the
text that `fmt.Fprintf(sink, "in:\t%s\n", p)` (or `"out:\t%s\n"`) writes to it. -/
def loopWrite {P : Type} (rawLen : P → Option Nat) (typeName : P → String) :
    LoopEvent P → Sink × String
  | LoopEvent.rtcpIn p => (Sink.rtcpInStream, "in:\t" ++ rtcpPacket.String rawLen typeName p ++ "\n")
  | LoopEvent.rtcpOut p =>
    (Sink.rtcpOutStream, "out:\t" ++ rtcpPacket.String rawLen typeName p ++ "\n")
  | LoopEvent.rtpIn p => (Sink.rtpInStream, "in:\t" ++ rtpPacket.String p ++ "\n")
  | LoopEvent.rtpOut p => (Sink.rtpOutStream, "out:\t" ++ rtpPacket.String p ++ "\n")

/-- The fields of a data-packet line as the specification lists them: direction, `RTP`, receive
time in milliseconds, payload type, SSRC in hexadecimal, sequence number, timestamp, marker flag
and payload length. -/
def rtpLineFields (direction : String) (p : rtpPacket) : List String :=
  [ direction, "RTP", fmtDecimal (Milliseconds p.receiveTime), fmtDecimal p.PayloadType,
    fmtHex p.SSRC, fmtDecimal p.SequenceNumber, fmtDecimal p.Timestamp,
    if p.Marker then "1" else "0", fmtDecimal p.Payload.length ]

/-- Where the goroutine running `RTPLogInterceptor.loop` is: in its `for { select { ... } }`, in
its deferred function at the send `r.closed <- struct{}{}`, or finished. -/
inductive LoopPc where
  | selecting
  | sendingClosed
  | exited
deriving DecidableEq, Repr

/-- Where a call of `RTPLogInterceptor.Close` is: not made yet, entered (about to evaluate
`r.isClosed()`), about to execute `close(r.done)` (`isClosed` has answered `false`), at the
receive `<-r.closed`, returned, or stopped by the run-time panic "close of closed channel". -/
inductive ClosePc where
  | notCalled
  | entered
  | closing
  | waiting
  | returned
  | panicked
deriving DecidableEq, Repr

/-- State of a recorder on which `Close` is called twice: whether the channel `done` has been
closed, where the loop is, and where the two calls are.  The channel `closed` is unbuffered and
never closed, so it has no state of its own: a value passes when a sender and a receiver meet. -/
structure CloseState where
  doneClosed : Bool
  loop : LoopPc
  first : ClosePc
  second : ClosePc
deriving DecidableEq, Repr

/-- One step of a call of `Close` that involves no other goroutine, given whether `done` is
closed: the result is the new status of `done` and the new place of the call.
`entered`: `if !r.isClosed()` reads `done` without blocking.
`closing`: `close(r.done)`, which panics on a channel that is closed already. -/
def closeStep (doneClosed : Bool) : ClosePc → Option (Bool × ClosePc)
  | ClosePc.entered => some (doneClosed, if doneClosed then ClosePc.waiting else ClosePc.closing)
  | ClosePc.closing => some (true, if doneClosed then ClosePc.panicked else ClosePc.waiting)
  | _ => none

/-- The states that one step of one goroutine can lead to from `s`:

* the loop, in its `select`, finds `done` closed, returns, and reaches the send of its deferred
  function (a telemetry event taken by the `select` leaves this state as it is and is not listed);
* the send `r.closed <- struct{}{}` of the loop meets the receive `<-r.closed` of a call of
  `Close`: the loop finishes and that call returns;
* a call of `Close` takes a step of its own (`closeStep`);
* the second call is made, which in a sequential caller requires the first to have returned. -/
def CloseState.next (s : CloseState) : List CloseState :=
  (if s.loop = LoopPc.selecting ∧ s.doneClosed = true then
    [{ s with loop := LoopPc.sendingClosed }] else []) ++
  (if s.loop = LoopPc.sendingClosed ∧ s.first = ClosePc.waiting then
    [{ s with loop := LoopPc.exited, first := ClosePc.returned }] else []) ++
  (if s.loop = LoopPc.sendingClosed ∧ s.second = ClosePc.waiting then
    [{ s with loop := LoopPc.exited, second := ClosePc.returned }] else []) ++
  (match closeStep s.doneClosed s.first with
    | some (d, pc) => [{ s with doneClosed := d, first := pc }]
    | none => []) ++
  (match closeStep s.doneClosed s.second with
    | some (d, pc) => [{ s with doneClosed := d, second := pc }]
    | none => []) ++
  (if s.second = ClosePc.notCalled ∧ s.first = ClosePc.returned then
    [{ s with second := ClosePc.entered }] else [])

/-- The states reachable from `s0` by steps of the goroutines, in any interleaving. -/
inductive CloseState.Reachable (s0 : CloseState) : CloseState → Prop where
  | start : CloseState.Reachable s0 s0
  | step {s s' : CloseState} :
      CloseState.Reachable s0 s → s' ∈ s.next → CloseState.Reachable s0 s'

/-- A recorder just created by `NewRTPLogInterceptor` (the loop is running, `done` is open), on
which one goroutine calls `Close()` and then `Close()` again. -/
def closeTwiceSequential : CloseState :=
  { doneClosed := false, loop := LoopPc.selecting, first := ClosePc.entered,
    second := ClosePc.notCalled }

/-- A recorder just created, on which two goroutines call `Close()` at the same time. -/
def closeTwiceConcurrent : CloseState :=
  { doneClosed := false, loop := LoopPc.selecting, first := ClosePc.entered,
    second := ClosePc.entered }

/-- Invariant of the sequential scenario: the loop has finished once the first call has returned,
the second call is made only then, and the second call has not returned. -/
def seqInv (s : CloseState) : Prop :=
  (s.first = ClosePc.returned → s.loop = LoopPc.exited) ∧
  (s.second ≠ ClosePc.notCalled → s.first = ClosePc.returned) ∧
  s.second ≠ ClosePc.returned

/-- Invariant of the concurrent scenario: the loop has finished once one of the calls has
returned, and the two calls have not both returned. -/
def concInv (s : CloseState) : Prop :=
  (s.first = ClosePc.returned ∨ s.second = ClosePc.returned → s.loop = LoopPc.exited) ∧
  ¬ (s.first = ClosePc.returned ∧ s.second = ClosePc.returned)

/-- The states the sequential scenario goes through, in order. -/
def closeTwiceSequentialRun : List CloseState :=
  [ closeTwiceSequential,
    { doneClosed := false, loop := LoopPc.selecting, first := ClosePc.closing,
      second := ClosePc.notCalled },
    { doneClosed := true, loop := LoopPc.selecting, first := ClosePc.waiting,
      second := ClosePc.notCalled },
    { doneClosed := true, loop := LoopPc.sendingClosed, first := ClosePc.waiting,
      second := ClosePc.notCalled },
    { doneClosed := true, loop := LoopPc.exited, first := ClosePc.returned,
      second := ClosePc.notCalled },
    { doneClosed := true, loop := LoopPc.exited, first := ClosePc.returned,
      second := ClosePc.entered },
    { doneClosed := true, loop := LoopPc.exited, first := ClosePc.returned,
      second := ClosePc.waiting } ]

end utils

namespace udp

open rtc (GoError)
open utils (Attributes ReadResult rtcpPacket)

/-- The state of a `gstWriter` that `acceptFeedback` reads and writes: the field `targetBitrate`,
the arguments of the calls `g.pipeline.SetBitRate(...)` made so far (in kbit/s), the estimates
logged so far by `log.Printf("new target bitrate: %v\n", bitrate)`, and the events sent so far on
the recorder's channel `rtcpIn` by the feedback reader. -/
structure gstWriter (P : Type) where
  targetBitrate : Int
  setBitRateCalls : List Nat
  logged : List Int
  rtcpIn : List (rtcpPacket P)

/-- A `gstWriter` as `Sender.Send` creates it: `targetBitrate` has its zero value. -/
def gstWriter.init (P : Type) : gstWriter P :=
  { targetBitrate := 0, setBitRateCalls := [], logged := [], rtcpIn := [] }

/-- The rate adaptation of `acceptFeedback`:
`if bitrate != g.targetBitrate && bitrate > 0 { g.targetBitrate = bitrate; log.Printf(...);
g.pipeline.SetBitRate(uint(bitrate / 1000)) }`. -/
def applyEstimate {P : Type} (g : gstWriter P) (bitrate : Int) : gstWriter P :=
  if bitrate != g.targetBitrate && decide (bitrate > 0) then
    { g with
      targetBitrate := bitrate
      logged := g.logged ++ [bitrate]
      setBitRateCalls := g.setBitRateCalls ++ [(Int.tdiv bitrate 1000).toNat] }
  else g

/-- The state of a fresh `gstWriter` after the rate adaptation has seen the estimates `bs`, one
per feedback cycle. -/
def afterEstimates (P : Type) (bs : List Int) : gstWriter P :=
  bs.foldl applyEstimate (gstWriter.init P)

/-- What one iteration of the loop of `acceptFeedback` obtains from outside: the result of
`g.conn.Read(buffer)` (the datagram `buffer[:n]`, or an error) and the result of
`g.cc.GetTargetBitrate(RTPSSRC)`, which is consulted only when a congestion controller is
configured. -/
structure Iteration where
  read : Except GoError (List Nat)
  bitrate : Except GoError Int

/-- Embedding of `gstWriter.acceptFeedback`, run on the inputs of its successive iterations.
`rtcpReader` is `g.rtcpReader.Read` (with the events it sends on `rtcpIn`), `hasCC` tells whether
`g.cc != nil`.  The result is the final state and the error returned, `none` when the loop has
not returned (it is waiting in `g.conn.Read` for the next datagram). -/
def acceptFeedback {P : Type}
    (rtcpReader : List Nat → Attributes → ReadResult × List (rtcpPacket P)) (hasCC : Bool) :
    gstWriter P → List Iteration → gstWriter P × Option GoError
  | g, [] => (g, none)
  | g, it :: rest =>
    match it.read with
    | Except.error err => (g, some err)
    | Except.ok buffer =>
      let (r, events) := rtcpReader buffer []
      let g1 := { g with rtcpIn := g.rtcpIn ++ events }
      match r.err with
      | some err => (g1, some err)
      | none =>
        if hasCC then
          match it.bitrate with
          | Except.error err => (g1, some err)
          | Except.ok bitrate => acceptFeedback rtcpReader hasCC (applyEstimate g1 bitrate) rest
        else acceptFeedback rtcpReader hasCC g1 rest

/-- The innermost reader that `Sender.Send` binds:
`func(in []byte, attributes) { return len(in), nil, nil }`. -/
def baseReader (b : List Nat) (_a : Attributes) : ReadResult :=
  { n := b.length, attr := none, err := none }

end udp


/-! ## Auxiliary results: rounding to binary64 -/

namespace float64

theorem pow2_eq (e : Int) : pow2 e = (2 : ℚ) ^ e := by
  unfold pow2
  split
  · next h =>
    obtain ⟨n, rfl⟩ := Int.eq_ofNat_of_zero_le h
    simp
  · next h =>
    have h' : 0 ≤ -e := by omega
    obtain ⟨n, hn⟩ := Int.eq_ofNat_of_zero_le h'
    have he : e = -(n : Int) := by omega
    subst he
    simp

theorem log2Aux_spec (fuel n : Nat) (hn : 1 ≤ n) (hf : n ≤ fuel) :
    2 ^ log2Aux fuel n ≤ n ∧ n < 2 ^ (log2Aux fuel n + 1) := by
  induction fuel generalizing n with
  | zero => omega
  | succ fuel ih =>
    unfold log2Aux
    split
    · next h => constructor <;> simp <;> omega
    · next h =>
      have h2 : 2 ≤ n := by omega
      obtain ⟨ih1, ih2⟩ := ih (n / 2) (by omega) (by omega)
      constructor
      · rw [pow_succ]
        omega
      · rw [pow_succ]
        omega

theorem log2_spec (n : Nat) (hn : 1 ≤ n) : 2 ^ log2 n ≤ n ∧ n < 2 ^ (log2 n + 1) :=
  log2Aux_spec n n hn (le_refl n)

theorem floorLog2_spec (q : ℚ) (hq : 0 < q) :
    (2 : ℚ) ^ floorLog2 q ≤ q ∧ q < (2 : ℚ) ^ (floorLog2 q + 1) := by
  have hnum : 0 < q.num := Rat.num_pos.2 hq
  have hden : 1 ≤ q.den := q.den_pos
  have hn1 : 1 ≤ q.num.natAbs := by omega
  obtain ⟨na, nb⟩ := log2_spec q.num.natAbs hn1
  obtain ⟨da, db⟩ := log2_spec q.den hden
  have hqeq : q = (q.num.natAbs : ℚ) / (q.den : ℚ) := by
    have h1 : ((q.num.natAbs : Int) : ℚ) = (q.num : ℚ) := by
      rw [Int.natAbs_of_nonneg (le_of_lt hnum)]
    have h2 : ((q.num.natAbs : ℕ) : ℚ) = (q.num : ℚ) := by
      rw [← h1, Int.cast_natCast]
    rw [h2]
    exact (Rat.num_div_den q).symm
  have hdpos : (0 : ℚ) < (q.den : ℚ) := by exact_mod_cast hden
  have hna : ((2 : ℚ) ^ (log2 q.num.natAbs)) ≤ (q.num.natAbs : ℚ) := by exact_mod_cast na
  have hnb : (q.num.natAbs : ℚ) < (2 : ℚ) ^ (log2 q.num.natAbs + 1) := by exact_mod_cast nb
  have hda : ((2 : ℚ) ^ (log2 q.den)) ≤ (q.den : ℚ) := by exact_mod_cast da
  have hdb : (q.den : ℚ) < (2 : ℚ) ^ (log2 q.den + 1) := by exact_mod_cast db
  -- bounds of `q` by powers of two
  have hlow : (2 : ℚ) ^ ((log2 q.num.natAbs : Int) - (log2 q.den : Int) - 1) < q := by
    have : (2 : ℚ) ^ ((log2 q.num.natAbs : Int) - (log2 q.den : Int) - 1) =
        (2 : ℚ) ^ (log2 q.num.natAbs) / (2 : ℚ) ^ (log2 q.den + 1) := by
      rw [show ((log2 q.num.natAbs : Int) - (log2 q.den : Int) - 1) =
        (log2 q.num.natAbs : Int) - ((log2 q.den + 1 : ℕ) : Int) by push_cast; ring]
      rw [zpow_sub₀ (by norm_num : (2 : ℚ) ≠ 0), zpow_natCast, zpow_natCast]
    rw [this]
    refine lt_of_lt_of_eq ?_ hqeq.symm
    rw [div_lt_div_iff₀ (by positivity) hdpos]
    calc (2 : ℚ) ^ log2 q.num.natAbs * (q.den : ℚ)
        < (2 : ℚ) ^ log2 q.num.natAbs * (2 : ℚ) ^ (log2 q.den + 1) :=
          mul_lt_mul_of_pos_left hdb (by positivity)
      _ ≤ (q.num.natAbs : ℚ) * (2 : ℚ) ^ (log2 q.den + 1) :=
          mul_le_mul_of_nonneg_right hna (by positivity)
  have hhigh : q < (2 : ℚ) ^ ((log2 q.num.natAbs : Int) - (log2 q.den : Int) + 1) := by
    have : (2 : ℚ) ^ ((log2 q.num.natAbs : Int) - (log2 q.den : Int) + 1) =
        (2 : ℚ) ^ (log2 q.num.natAbs + 1) / (2 : ℚ) ^ (log2 q.den) := by
      rw [show ((log2 q.num.natAbs : Int) - (log2 q.den : Int) + 1) =
        ((log2 q.num.natAbs + 1 : ℕ) : Int) - ((log2 q.den : ℕ) : Int) by push_cast; ring]
      rw [zpow_sub₀ (by norm_num : (2 : ℚ) ≠ 0), zpow_natCast, zpow_natCast]
    rw [this]
    refine lt_of_eq_of_lt hqeq ?_
    rw [div_lt_div_iff₀ hdpos (by positivity)]
    calc (q.num.natAbs : ℚ) * (2 : ℚ) ^ log2 q.den
        < (2 : ℚ) ^ (log2 q.num.natAbs + 1) * (2 : ℚ) ^ log2 q.den :=
          mul_lt_mul_of_pos_right hnb (by positivity)
      _ ≤ (2 : ℚ) ^ (log2 q.num.natAbs + 1) * (q.den : ℚ) :=
          mul_le_mul_of_nonneg_left hda (by positivity)
  unfold floorLog2
  simp only [pow2_eq]
  split
  · next h => exact ⟨h, hhigh⟩
  · next h =>
    refine ⟨le_of_lt hlow, ?_⟩
    rw [sub_add_cancel]
    exact lt_of_not_le h

/-- The binade exponent is determined by the two bounds. -/
theorem floorLog2_unique (q : ℚ) (e : Int) (h1 : (2 : ℚ) ^ e ≤ q) (h2 : q < (2 : ℚ) ^ (e + 1)) :
    floorLog2 q = e := by
  have hq : 0 < q := lt_of_lt_of_le (by positivity) h1
  obtain ⟨s1, s2⟩ := floorLog2_spec q hq
  have two : (1 : ℚ) < 2 := by norm_num
  have a : e < floorLog2 q + 1 := (zpow_lt_zpow_iff_right₀ two).1 (lt_of_le_of_lt h1 s2)
  have b : floorLog2 q < e + 1 := (zpow_lt_zpow_iff_right₀ two).1 (lt_of_le_of_lt s1 h2)
  omega

theorem floorLog2_mono (p q : ℚ) (hp : 0 < p) (hpq : p ≤ q) : floorLog2 p ≤ floorLog2 q := by
  obtain ⟨s1, -⟩ := floorLog2_spec p hp
  obtain ⟨-, t2⟩ := floorLog2_spec q (lt_of_lt_of_le hp hpq)
  have two : (1 : ℚ) < 2 := by norm_num
  have a : floorLog2 p < floorLog2 q + 1 :=
    (zpow_lt_zpow_iff_right₀ two).1 (lt_of_le_of_lt (le_trans s1 hpq) t2)
  omega

theorem roundHalfEven_eq (x : ℚ) :
    roundHalfEven x =
      if 2 * (x - (⌊x⌋ : ℚ)) < 1 then ⌊x⌋
      else if 1 < 2 * (x - (⌊x⌋ : ℚ)) then ⌊x⌋ + 1
      else if ⌊x⌋ % 2 = 0 then ⌊x⌋ else ⌊x⌋ + 1 := by
  unfold roundHalfEven
  rw [← Rat.floor_def]

/-- The rounded value is within one half of the argument, and even when exactly half away. -/
theorem roundHalfEven_spec (x : ℚ) :
    -1 ≤ 2 * (x - (roundHalfEven x : ℚ)) ∧ 2 * (x - (roundHalfEven x : ℚ)) ≤ 1 ∧
    ((2 * (x - (roundHalfEven x : ℚ)) = 1 ∨ 2 * (x - (roundHalfEven x : ℚ)) = -1) →
      roundHalfEven x % 2 = 0) := by
  have h1 : (⌊x⌋ : ℚ) ≤ x := Int.floor_le x
  have h2 : x < (⌊x⌋ : ℚ) + 1 := Int.lt_floor_add_one x
  rw [roundHalfEven_eq]
  split
  · next h =>
    refine ⟨by linarith, by linarith, ?_⟩
    rintro (h' | h') <;> linarith
  · next h =>
    split
    · next h' =>
      push_cast
      refine ⟨by linarith, by linarith, ?_⟩
      rintro (h'' | h'') <;> linarith
    · next h' =>
      have heq : 2 * (x - (⌊x⌋ : ℚ)) = 1 := le_antisymm (not_lt.1 h') (not_lt.1 h)
      split
      · next hpar =>
        exact ⟨by linarith, by linarith, fun _ => hpar⟩
      · next hpar =>
        push_cast
        refine ⟨by linarith, by linarith, fun _ => ?_⟩
        omega

theorem roundHalfEven_unique (x : ℚ) (n : Int) (h1 : -1 ≤ 2 * (x - (n : ℚ)))
    (h2 : 2 * (x - (n : ℚ)) ≤ 1)
    (h3 : (2 * (x - (n : ℚ)) = 1 ∨ 2 * (x - (n : ℚ)) = -1) → n % 2 = 0) :
    roundHalfEven x = n := by
  obtain ⟨s1, s2, s3⟩ := roundHalfEven_spec x
  have a : ((roundHalfEven x : Int) : ℚ) - n ≤ 1 := by linarith
  have b : (n : ℚ) - (roundHalfEven x : Int) ≤ 1 := by linarith
  have a' : roundHalfEven x - n ≤ 1 := by exact_mod_cast a
  have b' : n - roundHalfEven x ≤ 1 := by exact_mod_cast b
  by_contra hne
  have hcases : roundHalfEven x = n + 1 ∨ roundHalfEven x = n - 1 := by omega
  rcases hcases with hc | hc
  · have hq : ((roundHalfEven x : Int) : ℚ) = n + 1 := by exact_mod_cast hc
    have e1 : 2 * (x - (n : ℚ)) = 1 := by linarith
    have e2 : 2 * (x - (roundHalfEven x : ℚ)) = -1 := by linarith
    have p1 := h3 (Or.inl e1)
    have p2 := s3 (Or.inr e2)
    omega
  · have hq : ((roundHalfEven x : Int) : ℚ) = n - 1 := by exact_mod_cast hc
    have e1 : 2 * (x - (n : ℚ)) = -1 := by linarith
    have e2 : 2 * (x - (roundHalfEven x : ℚ)) = 1 := by linarith
    have p1 := h3 (Or.inr e1)
    have p2 := s3 (Or.inl e2)
    omega

theorem roundHalfEven_intCast (n : Int) : roundHalfEven (n : ℚ) = n :=
  roundHalfEven_unique _ n (by simp) (by simp) (by
    rintro (h | h) <;> simp at h)

theorem roundHalfEven_neg (x : ℚ) : roundHalfEven (-x) = -roundHalfEven x := by
  obtain ⟨s1, s2, s3⟩ := roundHalfEven_spec x
  apply roundHalfEven_unique
  · push_cast
    linarith
  · push_cast
    linarith
  · push_cast
    intro h
    have : roundHalfEven x % 2 = 0 := by
      apply s3
      rcases h with h | h
      · right
        linarith
      · left
        linarith
    omega

theorem roundHalfEven_mono (x y : ℚ) (hxy : x ≤ y) : roundHalfEven x ≤ roundHalfEven y := by
  obtain ⟨s1, s2, s3⟩ := roundHalfEven_spec x
  obtain ⟨t1, t2, t3⟩ := roundHalfEven_spec y
  by_contra hlt
  have hlt' : roundHalfEven y + 1 ≤ roundHalfEven x := by omega
  have hq : ((roundHalfEven y : Int) : ℚ) + 1 ≤ (roundHalfEven x : Int) := by exact_mod_cast hlt'
  have e1 : 2 * (x - (roundHalfEven x : ℚ)) = -1 := by linarith
  have e2 : 2 * (y - (roundHalfEven y : ℚ)) = 1 := by linarith
  have p1 := s3 (Or.inr e1)
  have p2 := t3 (Or.inl e2)
  have hq' : ((roundHalfEven x : Int) : ℚ) ≤ (roundHalfEven y : Int) + 1 := by linarith
  have : roundHalfEven x ≤ roundHalfEven y + 1 := by exact_mod_cast hq'
  omega

theorem le_roundHalfEven (x : ℚ) (n : Int) (h : (n : ℚ) ≤ x) : n ≤ roundHalfEven x := by
  have := roundHalfEven_mono _ _ h
  rwa [roundHalfEven_intCast] at this

theorem roundHalfEven_le (x : ℚ) (n : Int) (h : x ≤ (n : ℚ)) : roundHalfEven x ≤ n := by
  have := roundHalfEven_mono _ _ h
  rwa [roundHalfEven_intCast] at this

theorem ulp_eq (q : ℚ) : ulp q = (2 : ℚ) ^ (max (floorLog2 |q|) (-1022) - 52) := by
  unfold ulp
  rw [pow2_eq]

theorem ulp_pos (q : ℚ) : 0 < ulp q := by
  rw [ulp_eq]
  positivity

theorem ulp_neg (q : ℚ) : ulp (-q) = ulp q := by
  unfold ulp
  rw [abs_neg]

theorem round_zero : round 0 = 0 := by
  simp [round]

theorem round_eq (q : ℚ) : round q = (roundHalfEven (q / ulp q) : ℚ) * ulp q := by
  unfold round
  split
  · next h =>
    subst h
    simp [roundHalfEven_intCast 0, show roundHalfEven 0 = 0 from by
      simpa using roundHalfEven_intCast 0]
  · rfl

theorem round_neg (q : ℚ) : round (-q) = -round q := by
  rw [round_eq, round_eq, ulp_neg, neg_div, roundHalfEven_neg]
  push_cast
  ring

theorem round_nonneg (q : ℚ) (hq : 0 ≤ q) : 0 ≤ round q := by
  rw [round_eq]
  have h : (0 : Int) ≤ roundHalfEven (q / ulp q) :=
    le_roundHalfEven _ 0 (by
      simp only [Int.cast_zero]
      exact div_nonneg hq (le_of_lt (ulp_pos q)))
  have h' : (0 : ℚ) ≤ (roundHalfEven (q / ulp q) : ℚ) := by exact_mod_cast h
  exact mul_nonneg h' (le_of_lt (ulp_pos q))

theorem round_nonpos (q : ℚ) (hq : q ≤ 0) : round q ≤ 0 := by
  have h := round_nonneg (-q) (by linarith)
  rw [round_neg] at h
  linarith

/-- Bounds of a positive number by its binade. -/
theorem binade_bounds (q : ℚ) (hq : 0 < q) :
    q < (2 : ℚ) ^ (max (floorLog2 |q|) (-1022) + 1) ∧
    (-1022 < floorLog2 |q| → (2 : ℚ) ^ (max (floorLog2 |q|) (-1022)) ≤ q) := by
  rw [abs_of_pos hq]
  obtain ⟨s1, s2⟩ := floorLog2_spec q hq
  have two : (1 : ℚ) ≤ 2 := by norm_num
  constructor
  · refine lt_of_lt_of_le s2 ?_
    exact zpow_le_zpow_right₀ two (by
      have := le_max_left (floorLog2 q) (-1022)
      omega)
  · intro h
    rw [max_eq_left (le_of_lt h)]
    exact s1

theorem round_mono_pos (p q : ℚ) (hp : 0 < p) (hpq : p ≤ q) : round p ≤ round q := by
  have hq : 0 < q := lt_of_lt_of_le hp hpq
  have hE : floorLog2 |p| ≤ floorLog2 |q| := by
    rw [abs_of_pos hp, abs_of_pos hq]
    exact floorLog2_mono p q hp hpq
  have two : (1 : ℚ) ≤ 2 := by norm_num
  rcases eq_or_lt_of_le (max_le_max hE (le_refl (-1022 : Int))) with heq | hlt
  · -- same spacing
    have hu : ulp p = ulp q := by rw [ulp_eq, ulp_eq, heq]
    rw [round_eq, round_eq, hu]
    have h : roundHalfEven (p / ulp q) ≤ roundHalfEven (q / ulp q) :=
      roundHalfEven_mono _ _ (div_le_div_of_nonneg_right hpq (le_of_lt (ulp_pos q)))
    have h' : (roundHalfEven (p / ulp q) : ℚ) ≤ (roundHalfEven (q / ulp q) : ℚ) := by
      exact_mod_cast h
    exact mul_le_mul_of_nonneg_right h' (le_of_lt (ulp_pos q))
  · -- `p` lies in a lower binade than `q`
    obtain ⟨pb, -⟩ := binade_bounds p hp
    obtain ⟨-, qb⟩ := binade_bounds q hq
    have hqn : -1022 < floorLog2 |q| := by
      have h1 := le_max_right (floorLog2 |p|) (-1022)
      have h2 : max (floorLog2 |q|) (-1022) = floorLog2 |q| ∨
          max (floorLog2 |q|) (-1022) = -1022 := by
        rcases le_total (floorLog2 |q|) (-1022) with h | h
        · right; exact max_eq_right h
        · left; exact max_eq_left h
      rcases h2 with h2 | h2 <;> omega
    have qb' := qb hqn
    -- round p ≤ 2 ^ (E p + 1)
    have hP : round p ≤ (2 : ℚ) ^ (max (floorLog2 |p|) (-1022) + 1) := by
      rw [round_eq]
      have hdiv : p / ulp p ≤ ((2 ^ 53 : Int) : ℚ) := by
        rw [div_le_iff₀ (ulp_pos p), ulp_eq]
        have : ((2 ^ 53 : Int) : ℚ) * (2 : ℚ) ^ (max (floorLog2 |p|) (-1022) - 52) =
            (2 : ℚ) ^ (max (floorLog2 |p|) (-1022) + 1) := by
          have h53 : ((2 ^ 53 : Int) : ℚ) = (2 : ℚ) ^ (53 : Int) := by norm_num
          rw [h53, ← zpow_add₀ (by norm_num : (2 : ℚ) ≠ 0)]
          congr 1
          ring
        rw [this]
        exact le_of_lt pb
      have h := roundHalfEven_le _ _ hdiv
      have h' : (roundHalfEven (p / ulp p) : ℚ) ≤ ((2 ^ 53 : Int) : ℚ) := by exact_mod_cast h
      calc (roundHalfEven (p / ulp p) : ℚ) * ulp p
          ≤ ((2 ^ 53 : Int) : ℚ) * ulp p := mul_le_mul_of_nonneg_right h' (le_of_lt (ulp_pos p))
        _ = (2 : ℚ) ^ (max (floorLog2 |p|) (-1022) + 1) := by
          rw [ulp_eq]
          have h53 : ((2 ^ 53 : Int) : ℚ) = (2 : ℚ) ^ (53 : Int) := by norm_num
          rw [h53, ← zpow_add₀ (by norm_num : (2 : ℚ) ≠ 0)]
          congr 1
          ring
    -- 2 ^ (E q) ≤ round q
    have hQ : (2 : ℚ) ^ (max (floorLog2 |q|) (-1022)) ≤ round q := by
      rw [round_eq]
      have hdiv : ((2 ^ 52 : Int) : ℚ) ≤ q / ulp q := by
        rw [le_div_iff₀ (ulp_pos q), ulp_eq]
        have : ((2 ^ 52 : Int) : ℚ) * (2 : ℚ) ^ (max (floorLog2 |q|) (-1022) - 52) =
            (2 : ℚ) ^ (max (floorLog2 |q|) (-1022)) := by
          have h52 : ((2 ^ 52 : Int) : ℚ) = (2 : ℚ) ^ (52 : Int) := by norm_num
          rw [h52, ← zpow_add₀ (by norm_num : (2 : ℚ) ≠ 0)]
          congr 1
          ring
        rw [this]
        exact qb'
      have h := le_roundHalfEven _ _ hdiv
      have h' : ((2 ^ 52 : Int) : ℚ) ≤ (roundHalfEven (q / ulp q) : ℚ) := by exact_mod_cast h
      calc (2 : ℚ) ^ (max (floorLog2 |q|) (-1022))
          = ((2 ^ 52 : Int) : ℚ) * ulp q := by
            rw [ulp_eq]
            have h52 : ((2 ^ 52 : Int) : ℚ) = (2 : ℚ) ^ (52 : Int) := by norm_num
            rw [h52, ← zpow_add₀ (by norm_num : (2 : ℚ) ≠ 0)]
            congr 1
            ring
        _ ≤ (roundHalfEven (q / ulp q) : ℚ) * ulp q :=
            mul_le_mul_of_nonneg_right h' (le_of_lt (ulp_pos q))
    have hmid : (2 : ℚ) ^ (max (floorLog2 |p|) (-1022) + 1) ≤
        (2 : ℚ) ^ (max (floorLog2 |q|) (-1022)) :=
      zpow_le_zpow_right₀ two (by omega)
    exact le_trans hP (le_trans hmid hQ)

/-- Rounding to binary64 is monotone. -/
theorem round_mono (p q : ℚ) (hpq : p ≤ q) : round p ≤ round q := by
  rcases lt_trichotomy 0 p with hp | hp | hp
  · exact round_mono_pos p q hp hpq
  · subst hp
    rw [round_zero]
    exact round_nonneg q hpq
  · rcases lt_trichotomy 0 q with hq | hq | hq
    · exact le_trans (round_nonpos p (le_of_lt hp)) (round_nonneg q (le_of_lt hq))
    · subst hq
      rw [round_zero]
      exact round_nonpos p hpq
    · have h := round_mono_pos (-q) (-p) (by linarith) (by linarith)
      rw [round_neg, round_neg] at h
      linarith

theorem abs_lt_binade (q : ℚ) (hq : q ≠ 0) :
    |q| < (2 : ℚ) ^ (max (floorLog2 |q|) (-1022) + 1) := by
  have h := (binade_bounds |q| (abs_pos.2 hq)).1
  rwa [abs_abs] at h

/-- A number with at most 53 significant bits and exponent at least `-1074` is a binary64
number: rounding leaves it as it is. -/
theorem round_eq_self (M a : Int) (ha : -1074 ≤ a) (hM : |M| ≤ 2 ^ 53) :
    round ((M : ℚ) * (2 : ℚ) ^ a) = (M : ℚ) * (2 : ℚ) ^ a := by
  by_cases hM0 : M = 0
  · subst hM0
    simp [round_zero]
  have two0 : (2 : ℚ) ≠ 0 := by norm_num
  have two1 : (1 : ℚ) < 2 := by norm_num
  have hr0 : (M : ℚ) * (2 : ℚ) ^ a ≠ 0 := by
    refine mul_ne_zero ?_ (zpow_ne_zero _ two0)
    exact_mod_cast hM0
  have habs : |(M : ℚ) * (2 : ℚ) ^ a| = (|M| : Int) * (2 : ℚ) ^ a := by
    rw [abs_mul, abs_of_pos (zpow_pos (by norm_num : (0 : ℚ) < 2) a)]
    push_cast
    rfl
  have hMq : ((|M| : Int) : ℚ) ≤ (2 : ℚ) ^ (53 : Int) := by
    have : ((|M| : Int) : ℚ) ≤ ((2 ^ 53 : Int) : ℚ) := by exact_mod_cast hM
    refine le_trans this (le_of_eq ?_)
    norm_num
  obtain ⟨s1, s2⟩ := floorLog2_spec _ (abs_pos.2 hr0)
  -- the binade exponent is at most `a + 53`
  have hL : floorLog2 |(M : ℚ) * (2 : ℚ) ^ a| ≤ a + 53 := by
    have h1 : |(M : ℚ) * (2 : ℚ) ^ a| ≤ (2 : ℚ) ^ (a + 53) := by
      rw [habs, zpow_add₀ two0, mul_comm ((2 : ℚ) ^ a)]
      exact mul_le_mul_of_nonneg_right hMq (le_of_lt (zpow_pos (by norm_num) a))
    have h2 := lt_of_le_of_lt (le_trans s1 h1) (lt_of_le_of_lt (le_refl _)
      (zpow_lt_zpow_right₀ two1 (by omega : a + 53 < a + 53 + 1)))
    have := (zpow_lt_zpow_iff_right₀ two1).1 h2
    omega
  -- the quotient by the spacing is an integer
  obtain ⟨n, hn⟩ : ∃ n : Int, (M : ℚ) * (2 : ℚ) ^ a / ulp ((M : ℚ) * (2 : ℚ) ^ a) = (n : ℚ) := by
    rw [ulp_eq]
    by_cases hcase : max (floorLog2 |(M : ℚ) * (2 : ℚ) ^ a|) (-1022) - 52 ≤ a
    · obtain ⟨k, hk⟩ := Int.eq_ofNat_of_zero_le (by omega :
        0 ≤ a - (max (floorLog2 |(M : ℚ) * (2 : ℚ) ^ a|) (-1022) - 52))
      refine ⟨M * 2 ^ k, ?_⟩
      rw [mul_div_assoc, ← zpow_sub₀ two0, hk]
      push_cast
      rw [zpow_natCast]
    · have hE : max (floorLog2 |(M : ℚ) * (2 : ℚ) ^ a|) (-1022) =
          floorLog2 |(M : ℚ) * (2 : ℚ) ^ a| := by
        apply max_eq_left
        by_contra hc
        rw [max_eq_right (by omega)] at hcase
        omega
      rw [hE] at hcase ⊢
      have hLeq : floorLog2 |(M : ℚ) * (2 : ℚ) ^ a| = a + 53 := by omega
      rw [hLeq] at s1 ⊢
      have hMabs : ((|M| : Int) : ℚ) = (2 : ℚ) ^ (53 : Int) := by
        apply le_antisymm hMq
        rw [habs, zpow_add₀ two0, mul_comm ((2 : ℚ) ^ a)] at s1
        exact le_of_mul_le_mul_right s1 (zpow_pos (by norm_num) a)
      have hMabs' : |M| = 2 ^ 53 := by
        have : ((|M| : Int) : ℚ) = ((2 ^ 53 : Int) : ℚ) := by
          rw [hMabs]
          norm_num
        exact_mod_cast this
      have hcases : M = 2 ^ 53 ∨ M = -2 ^ 53 := by
        rcases abs_cases M with ⟨h, -⟩ | ⟨h, -⟩
        · left; omega
        · right; omega
      have hexp : (2 : ℚ) ^ (a + 53 - 52) = (2 : ℚ) ^ a * 2 := by
        rw [show a + 53 - 52 = a + 1 by ring, zpow_add₀ two0, zpow_one]
      rw [hexp]
      have hpos : (0 : ℚ) < (2 : ℚ) ^ a := zpow_pos (by norm_num) a
      rcases hcases with h | h
      · refine ⟨2 ^ 52, ?_⟩
        rw [h]
        field_simp
        ring
      · refine ⟨-2 ^ 52, ?_⟩
        rw [h]
        field_simp
        ring
  rw [round_eq, hn, roundHalfEven_intCast, ← hn]
  exact div_mul_cancel₀ _ (ne_of_gt (ulp_pos _))

/-- The result of rounding has at most 53 significant bits and an exponent of at least
`-1074`. -/
theorem round_repr (q : ℚ) :
    ∃ M a : Int, round q = (M : ℚ) * (2 : ℚ) ^ a ∧ -1074 ≤ a ∧ |M| ≤ 2 ^ 53 := by
  refine ⟨roundHalfEven (q / ulp q), max (floorLog2 |q|) (-1022) - 52, ?_, ?_, ?_⟩
  · rw [round_eq, ulp_eq]
  · have := le_max_right (floorLog2 |q|) (-1022)
    omega
  · by_cases hq : q = 0
    · subst hq
      have : roundHalfEven (0 / ulp 0) = 0 := by
        rw [zero_div]
        simpa using roundHalfEven_intCast 0
      rw [this]
      simp
    · have hb := abs_lt_binade q hq
      have hu := ulp_pos q
      have hdiv : |q / ulp q| ≤ ((2 ^ 53 : Int) : ℚ) := by
        rw [abs_div, abs_of_pos hu, div_le_iff₀ hu, ulp_eq]
        have : ((2 ^ 53 : Int) : ℚ) * (2 : ℚ) ^ (max (floorLog2 |q|) (-1022) - 52) =
            (2 : ℚ) ^ (max (floorLog2 |q|) (-1022) + 1) := by
          have h53 : ((2 ^ 53 : Int) : ℚ) = (2 : ℚ) ^ (53 : Int) := by norm_num
          rw [h53, ← zpow_add₀ (by norm_num : (2 : ℚ) ≠ 0)]
          congr 1
          ring
        rw [this]
        exact le_of_lt hb
      obtain ⟨h1, h2⟩ := abs_le.1 hdiv
      have u := roundHalfEven_le _ _ h2
      have l := le_roundHalfEven (q / ulp q) (-(2 ^ 53)) (by
        push_cast
        push_cast at h1
        exact h1)
      rw [abs_le]
      exact ⟨l, u⟩

/-- Rounding moves a number by at most half the spacing. -/
theorem round_error (q : ℚ) : |round q - q| ≤ ulp q / 2 := by
  obtain ⟨s1, s2, -⟩ := roundHalfEven_spec (q / ulp q)
  have hu := ulp_pos q
  rw [round_eq]
  have hq : q / ulp q * ulp q = q := div_mul_cancel₀ q (ne_of_gt hu)
  have e : (roundHalfEven (q / ulp q) : ℚ) * ulp q - q =
      -((q / ulp q - (roundHalfEven (q / ulp q) : ℚ)) * ulp q) := by
    linear_combination hq
  rw [e, abs_neg, abs_mul, abs_of_pos hu]
  have : |q / ulp q - (roundHalfEven (q / ulp q) : ℚ)| ≤ 1 / 2 := by
    rw [abs_le]
    constructor <;> linarith
  calc |q / ulp q - (roundHalfEven (q / ulp q) : ℚ)| * ulp q ≤ 1 / 2 * ulp q :=
        mul_le_mul_of_nonneg_right this (le_of_lt hu)
    _ = ulp q / 2 := by ring

/-- The spacing in a binade of normal numbers. -/
theorem ulp_of_binade (q : ℚ) (e : Int) (he : -1022 ≤ e) (h1 : (2 : ℚ) ^ e ≤ |q|)
    (h2 : |q| < (2 : ℚ) ^ (e + 1)) : ulp q = (2 : ℚ) ^ (e - 52) := by
  rw [ulp_eq, floorLog2_unique |q| e h1 h2, max_eq_left he]

/-- The spacing below a power of two. -/
theorem ulp_le_of_abs_lt (q : ℚ) (e : Int) (he : -1022 ≤ e) (hq : q ≠ 0)
    (h : |q| < (2 : ℚ) ^ (e + 1)) : ulp q ≤ (2 : ℚ) ^ (e - 52) := by
  obtain ⟨s1, -⟩ := floorLog2_spec |q| (abs_pos.2 hq)
  have two : (1 : ℚ) < 2 := by norm_num
  have hL : floorLog2 |q| < e + 1 := (zpow_lt_zpow_iff_right₀ two).1 (lt_of_le_of_lt s1 h)
  rw [ulp_eq]
  apply zpow_le_zpow_right₀ (le_of_lt two)
  have : max (floorLog2 |q|) (-1022) ≤ e := max_le (by omega) he
  omega

end float64

/-! ## Auxiliary results: the time base -/

namespace rtc

open float64

theorem mul_65536_exact (q : ℚ) : float64.mul (float64.round q) 65536 = float64.round q * 65536 := by
  obtain ⟨M, a, hr, ha, hM⟩ := round_repr q
  unfold float64.mul
  rw [hr]
  have h : (M : ℚ) * (2 : ℚ) ^ a * 65536 = (M : ℚ) * (2 : ℚ) ^ (a + 16) := by
    rw [zpow_add₀ (by norm_num : (2 : ℚ) ≠ 0)]
    norm_num
    ring
  rw [h]
  exact round_eq_self M (a + 16) (by omega) hM

theorem toUint64_of_nonneg (y : ℚ) (h0 : 0 ≤ y) (h1 : y < 18446744073709551616) :
    float64.toUint64 y = some ⌊y⌋.toNat := by
  unfold float64.toUint64
  rw [if_pos ⟨by linarith, h1⟩]
  have hnum : 0 ≤ y.num := Rat.num_nonneg.2 h0
  rw [Int.tdiv_eq_ediv hnum (by positivity), ← Rat.floor_def]

theorem land_mask (n : Nat) : Nat.land 0xFFFFFFFF n = n % 4294967296 := by
  have h := Nat.and_pow_two_sub_one_eq_mod n 32
  have h' : Nat.land 0xFFFFFFFF n = n &&& (2 ^ 32 - 1) := by
    show 0xFFFFFFFF &&& n = n &&& (2 ^ 32 - 1)
    rw [Nat.and_comm, show (2 : Nat) ^ 32 - 1 = 0xFFFFFFFF from by norm_num]
  rw [h', h]

/-- The value returned, in terms of the elapsed seconds computed in `float64`. -/
theorem getTimeBetweenNTP_eq (t0 : ℚ) (tx : Time) (h0 : 0 ≤ elapsed t0 tx)
    (h1 : elapsed t0 tx < 281474976710656) :
    getTimeBetweenNTP t0 tx = some (⌊elapsed t0 tx * 65536⌋.toNat % 4294967296) := by
  unfold getTimeBetweenNTP
  have hex : float64.mul (elapsed t0 tx) 65536 = elapsed t0 tx * 65536 := by
    unfold elapsed float64.sub
    exact mul_65536_exact _
  simp only [hex]
  rw [toUint64_of_nonneg _ (by positivity) (by linarith)]
  simp [land_mask]

theorem c1em6_eq : float64.c1em6 = 4722366482869645 / 4722366482869645213696 := by
  decide!

theorem ofInt_exact (n : Int) (h : |n| ≤ 2 ^ 53) : float64.ofInt n = (n : ℚ) := by
  have := round_eq_self n 0 (by norm_num) h
  simpa [float64.ofInt] using this

theorem usecs_eq (t : Int) :
    Time.UnixMicro t - Time.Unix t * 1000000 = (t % 1000000000) / 1000 := by
  unfold Time.UnixMicro
  ring

/-- The microsecond part, converted and scaled in `float64`, lies between 0 and 1. -/
theorem mul_usecs_bounds (u : Int) (h0 : 0 ≤ u) (h1 : u ≤ 999999) :
    0 ≤ float64.mul (float64.ofInt u) float64.c1em6 ∧
    float64.mul (float64.ofInt u) float64.c1em6 ≤ 1 := by
  rw [ofInt_exact u (by rw [abs_of_nonneg h0]; omega), c1em6_eq]
  have hu0 : (0 : ℚ) ≤ (u : ℚ) := by exact_mod_cast h0
  have hu1 : (u : ℚ) ≤ 999999 := by exact_mod_cast h1
  constructor
  · exact round_nonneg _ (by positivity)
  · have h := round_mono ((u : ℚ) * (4722366482869645 / 4722366482869645213696)) 1 (by
      have : (u : ℚ) * (4722366482869645 / 4722366482869645213696) ≤
          999999 * (4722366482869645 / 4722366482869645213696) :=
        mul_le_mul_of_nonneg_right hu1 (by norm_num)
      refine le_trans this ?_
      norm_num)
    have h1' : float64.round 1 = 1 := by
      have := round_eq_self 1 0 (by norm_num) (by norm_num)
      simpa using this
    rw [h1'] at h
    exact h

theorem unixSeconds_mono (t1 t2 : Int) (h : t1 ≤ t2) (hlo : -2 ^ 53 ≤ Time.Unix t1)
    (hhi : Time.Unix t2 ≤ 2 ^ 53) : unixSeconds t1 ≤ unixSeconds t2 := by
  have hs : Time.Unix t1 ≤ Time.Unix t2 := by
    unfold Time.Unix
    exact Int.ediv_le_ediv (by norm_num) h
  have e1 : |Time.Unix t1| ≤ 2 ^ 53 := by
    rw [abs_le]
    exact ⟨by omega, by omega⟩
  have e2 : |Time.Unix t2| ≤ 2 ^ 53 := by
    rw [abs_le]
    exact ⟨by omega, by omega⟩
  have u1a : 0 ≤ (t1 % 1000000000) / 1000 := by omega
  have u1b : (t1 % 1000000000) / 1000 ≤ 999999 := by omega
  have u2a : 0 ≤ (t2 % 1000000000) / 1000 := by omega
  have u2b : (t2 % 1000000000) / 1000 ≤ 999999 := by omega
  unfold unixSeconds
  simp only [usecs_eq]
  rw [ofInt_exact _ e1, ofInt_exact _ e2]
  unfold float64.add
  apply round_mono
  rcases eq_or_lt_of_le hs with heq | hlt
  · -- same second: the microsecond parts are ordered
    have hu : (t1 % 1000000000) / 1000 ≤ (t2 % 1000000000) / 1000 := by
      unfold Time.Unix at heq
      omega
    rw [heq]
    have hm : float64.mul (float64.ofInt ((t1 % 1000000000) / 1000)) float64.c1em6 ≤
        float64.mul (float64.ofInt ((t2 % 1000000000) / 1000)) float64.c1em6 := by
      rw [ofInt_exact _ (by rw [abs_of_nonneg u1a]; omega),
        ofInt_exact _ (by rw [abs_of_nonneg u2a]; omega), c1em6_eq]
      unfold float64.mul
      apply round_mono
      have : (((t1 % 1000000000) / 1000 : Int) : ℚ) ≤ (((t2 % 1000000000) / 1000 : Int) : ℚ) := by
        exact_mod_cast hu
      exact mul_le_mul_of_nonneg_right this (by norm_num)
    linarith
  · -- a later second: the microsecond part adds at most one
    have hq : (Time.Unix t1 : ℚ) + 1 ≤ (Time.Unix t2 : ℚ) := by exact_mod_cast hlt
    have b1 := (mul_usecs_bounds _ u1a u1b).2
    have b2 := (mul_usecs_bounds _ u2a u2b).1
    linarith

theorem elapsed_mono (t0 : ℚ) (t1 t2 : Int) (h : t1 ≤ t2) (hlo : -2 ^ 53 ≤ Time.Unix t1)
    (hhi : Time.Unix t2 ≤ 2 ^ 53) : elapsed t0 t1 ≤ elapsed t0 t2 := by
  unfold elapsed float64.sub
  apply round_mono
  have := unixSeconds_mono t1 t2 h hlo hhi
  linarith

/-- For epochs and instants between `2^30` and `2^31 - 1` seconds of Unix time, where the
spacing of binary64 numbers is `2^-22`, the elapsed time computed in `float64` is within `2^-22`
of the exact one. -/
theorem elapsed_close (t0 : ℚ) (tx : Int) (hf : float64.round t0 = t0)
    (ha : 1073741824 ≤ t0) (hb : t0 < 2147483648)
    (hs1 : 1073741824 ≤ Time.Unix tx) (hs2 : Time.Unix tx < 2147483647) :
    |elapsed t0 tx - exactElapsed t0 tx| < 1 / 4194304 ∧
    ∃ k : Int, elapsed t0 tx = (k : ℚ) / 4194304 := by
  have two0 : (2 : ℚ) ≠ 0 := by norm_num
  have p30 : (2 : ℚ) ^ (30 : Int) = 1073741824 := by norm_num
  have p31 : (2 : ℚ) ^ ((30 : Int) + 1) = 2147483648 := by norm_num
  have p22 : (2 : ℚ) ^ ((30 : Int) - 52) = 1 / 4194304 := by
    rw [show (30 : Int) - 52 = -22 by norm_num, zpow_neg]
    norm_num
  -- the microsecond part
  have u0 : 0 ≤ (tx % 1000000000) / 1000 := by omega
  have u1 : (tx % 1000000000) / 1000 ≤ 999999 := by omega
  have hu0 : (0 : ℚ) ≤ (((tx % 1000000000) / 1000 : Int) : ℚ) := by exact_mod_cast u0
  have hu1 : (((tx % 1000000000) / 1000 : Int) : ℚ) ≤ 999999 := by exact_mod_cast u1
  obtain ⟨x0, x1⟩ := mul_usecs_bounds _ u0 u1
  have hxy : |float64.mul (float64.ofInt ((tx % 1000000000) / 1000)) float64.c1em6 -
      (((tx % 1000000000) / 1000 : Int) : ℚ) * (4722366482869645 / 4722366482869645213696)| ≤
      1 / 18014398509481984 := by
    rw [ofInt_exact _ (by rw [abs_of_nonneg u0]; omega), c1em6_eq]
    unfold float64.mul
    by_cases hy : (((tx % 1000000000) / 1000 : Int) : ℚ) *
        (4722366482869645 / 4722366482869645213696) = 0
    · rw [hy, round_zero]
      norm_num
    · refine le_trans (round_error _) ?_
      have hlt : |(((tx % 1000000000) / 1000 : Int) : ℚ) *
          (4722366482869645 / 4722366482869645213696)| < (2 : ℚ) ^ ((-1 : Int) + 1) := by
        rw [abs_of_nonneg (by positivity)]
        norm_num
        have : (((tx % 1000000000) / 1000 : Int) : ℚ) *
            (4722366482869645 / 4722366482869645213696) ≤
            999999 * (4722366482869645 / 4722366482869645213696) :=
          mul_le_mul_of_nonneg_right hu1 (by norm_num)
        refine lt_of_le_of_lt this ?_
        norm_num
      have h := ulp_le_of_abs_lt _ (-1) (by norm_num) hy hlt
      have p53 : (2 : ℚ) ^ ((-1 : Int) - 52) = 1 / 9007199254740992 := by
        rw [show (-1 : Int) - 52 = -53 by norm_num, zpow_neg]
        norm_num
      rw [p53] at h
      linarith
  have hyu : |(((tx % 1000000000) / 1000 : Int) : ℚ) *
      (4722366482869645 / 4722366482869645213696) -
      (((tx % 1000000000) / 1000 : Int) : ℚ) / 1000000| ≤ 1 / 18014398509481984 := by
    rw [abs_le]
    constructor
    · have : (((tx % 1000000000) / 1000 : Int) : ℚ) *
          (1 / 1000000 - 4722366482869645 / 4722366482869645213696) ≤
          999999 * (1 / 1000000 - 4722366482869645 / 4722366482869645213696) :=
        mul_le_mul_of_nonneg_right hu1 (by norm_num)
      have h2 : (999999 : ℚ) * (1 / 1000000 - 4722366482869645 / 4722366482869645213696) ≤
          1 / 18014398509481984 := by norm_num
      linarith
    · have : (0 : ℚ) ≤ (((tx % 1000000000) / 1000 : Int) : ℚ) *
          (1 / 1000000 - 4722366482869645 / 4722366482869645213696) :=
        mul_nonneg hu0 (by norm_num)
      linarith
  -- the sum of seconds and microseconds
  have hsq1 : (1073741824 : ℚ) ≤ (Time.Unix tx : ℚ) := by exact_mod_cast hs1
  have hsq2 : (Time.Unix tx : ℚ) ≤ 2147483646 := by
    have : Time.Unix tx ≤ 2147483646 := by omega
    exact_mod_cast this
  have hsum1 : (2 : ℚ) ^ (30 : Int) ≤ |(Time.Unix tx : ℚ) +
      float64.mul (float64.ofInt ((tx % 1000000000) / 1000)) float64.c1em6| := by
    rw [abs_of_nonneg (by linarith), p30]
    linarith
  have hsum2 : |(Time.Unix tx : ℚ) +
      float64.mul (float64.ofInt ((tx % 1000000000) / 1000)) float64.c1em6| <
      (2 : ℚ) ^ ((30 : Int) + 1) := by
    rw [abs_of_nonneg (by linarith), p31]
    linarith
  have hulpS := ulp_of_binade _ 30 (by norm_num) hsum1 hsum2
  rw [p22] at hulpS
  have hA := round_error ((Time.Unix tx : ℚ) +
      float64.mul (float64.ofInt ((tx % 1000000000) / 1000)) float64.c1em6)
  rw [hulpS] at hA
  have hArepr := float64.round_eq ((Time.Unix tx : ℚ) +
      float64.mul (float64.ofInt ((tx % 1000000000) / 1000)) float64.c1em6)
  rw [hulpS] at hArepr
  -- the epoch is a multiple of the spacing as well
  have hulp0 : ulp t0 = 1 / 4194304 := by
    have := ulp_of_binade t0 30 (by norm_num)
      (by rw [abs_of_nonneg (by linarith), p30]; exact ha)
      (by rw [abs_of_nonneg (by linarith), p31]; exact hb)
    rw [this, p22]
  have h0repr := float64.round_eq t0
  rw [hf, hulp0] at h0repr
  -- the subtraction is exact
  have hus : unixSeconds tx = float64.round ((Time.Unix tx : ℚ) +
      float64.mul (float64.ofInt ((tx % 1000000000) / 1000)) float64.c1em6) := by
    unfold unixSeconds
    simp only [usecs_eq]
    rw [ofInt_exact _ (by rw [abs_le]; constructor <;> omega)]
    rfl
  obtain ⟨hA1, hA2⟩ := abs_le.1 hA
  obtain ⟨k, hk, hkb⟩ : ∃ k : Int, float64.round ((Time.Unix tx : ℚ) +
      float64.mul (float64.ofInt ((tx % 1000000000) / 1000)) float64.c1em6) - t0 =
      (k : ℚ) * (2 : ℚ) ^ (-22 : Int) ∧ |k| ≤ 2 ^ 53 := by
    generalize hnA : roundHalfEven (((Time.Unix tx : ℚ) +
      float64.mul (float64.ofInt ((tx % 1000000000) / 1000)) float64.c1em6) / (1 / 4194304)) = nA
      at hArepr
    generalize hn0 : roundHalfEven (t0 / (1 / 4194304)) = n0 at h0repr
    have hdiff : float64.round ((Time.Unix tx : ℚ) +
        float64.mul (float64.ofInt ((tx % 1000000000) / 1000)) float64.c1em6) - t0 =
        ((nA - n0 : Int) : ℚ) * (2 : ℚ) ^ (-22 : Int) := by
      rw [hArepr]
      nth_rewrite 1 [h0repr]
      push_cast
      rw [zpow_neg]
      norm_num
      ring
    refine ⟨nA - n0, hdiff, ?_⟩
    -- the difference has at most 53 significant bits
    have hd : ((nA - n0 : Int) : ℚ) = (float64.round ((Time.Unix tx : ℚ) +
        float64.mul (float64.ofInt ((tx % 1000000000) / 1000)) float64.c1em6) - t0) *
        4194304 := by
      rw [hdiff, zpow_neg]
      norm_num
      ring
    have hlo : ((-(2 ^ 53) : Int) : ℚ) ≤ ((nA - n0 : Int) : ℚ) := by
      rw [hd]
      norm_num
      linarith
    have hhi : ((nA - n0 : Int) : ℚ) ≤ ((2 ^ 53 : Int) : ℚ) := by
      rw [hd]
      norm_num
      linarith
    rw [abs_le]
    exact ⟨by exact_mod_cast hlo, by exact_mod_cast hhi⟩
  have hsub : elapsed t0 tx = unixSeconds tx - t0 := by
    unfold elapsed float64.sub
    rw [hus, hk]
    exact round_eq_self _ _ (by norm_num) hkb
  -- the exact elapsed time
  have hex : exactElapsed t0 tx = (Time.Unix tx : ℚ) +
      (((tx % 1000000000) / 1000 : Int) : ℚ) / 1000000 - t0 := by
    unfold exactElapsed Time.UnixMicro
    push_cast
    ring
  refine ⟨?_, k, ?_⟩
  · rw [hsub, hus, hex]
    obtain ⟨a1, a2⟩ := abs_le.1 hxy
    obtain ⟨b1, b2⟩ := abs_le.1 hyu
    rw [abs_lt]
    constructor <;> linarith
  · rw [hsub, hus, hk, zpow_neg]
    norm_num
    ring

/-! ## Auxiliary results: the acknowledgment collector -/

section sorting

variable {α : Type} (k : α → Nat)

theorem insertLeft_perm (x : α) (l : List α) :
    (insertLeft (fun a b => decide (k a < k b)) x l).Perm (x :: l) := by
  induction l with
  | nil => simp [insertLeft]
  | cons y rest ih =>
    simp only [insertLeft]
    split
    · exact (List.Perm.cons y ih).trans (List.Perm.swap x y rest)
    · exact List.Perm.refl _

theorem insertLeft_descending (x : α) (l : List α)
    (h : l.Pairwise (fun a b => k b ≤ k a)) :
    (insertLeft (fun a b => decide (k a < k b)) x l).Pairwise (fun a b => k b ≤ k a) := by
  induction l with
  | nil => simp [insertLeft]
  | cons y rest ih =>
    simp only [insertLeft]
    rw [List.pairwise_cons] at h
    split
    · next hlt =>
      have hlt' : k x < k y := by simpa using hlt
      rw [List.pairwise_cons]
      refine ⟨?_, ih h.2⟩
      intro z hz
      rcases (List.Perm.mem_iff (insertLeft_perm k x rest)).1 hz with hz' | hz'
      · exact Nat.le_of_lt hlt'
      · exact h.1 z (by assumption)
    · next hlt =>
      have hge : k y ≤ k x := by simpa using hlt
      rw [List.pairwise_cons]
      refine ⟨?_, List.pairwise_cons.2 h⟩
      intro z hz
      rcases List.mem_cons.1 hz with rfl | hz'
      · exact hge
      · exact Nat.le_trans (h.1 z hz') hge

theorem foldl_insertLeft_perm (l acc : List α) :
    (l.foldl (fun sortedRev x => insertLeft (fun a b => decide (k a < k b)) x sortedRev) acc).Perm
      (l.reverse ++ acc) := by
  induction l generalizing acc with
  | nil => simp
  | cons x rest ih =>
    simp only [List.foldl_cons, List.reverse_cons, List.append_assoc, List.singleton_append]
    exact (ih _).trans (List.Perm.append_left _ (insertLeft_perm k x acc))

theorem foldl_insertLeft_descending (l acc : List α)
    (h : acc.Pairwise (fun a b => k b ≤ k a)) :
    (l.foldl (fun sortedRev x => insertLeft (fun a b => decide (k a < k b)) x sortedRev)
      acc).Pairwise (fun a b => k b ≤ k a) := by
  induction l generalizing acc with
  | nil => simpa using h
  | cons x rest ih =>
    simp only [List.foldl_cons]
    exact ih _ (insertLeft_descending k x acc h)

theorem sortSlice_perm (l : List α) :
    (sortSlice (fun a b => decide (k a < k b)) l).Perm l := by
  unfold sortSlice insertionSortLessFunc
  refine (List.reverse_perm _).trans ?_
  refine (foldl_insertLeft_perm k l []).trans ?_
  simp

theorem sortSlice_sorted (l : List α) :
    (sortSlice (fun a b => decide (k a < k b)) l).Pairwise (fun a b => k a ≤ k b) := by
  unfold sortSlice insertionSortLessFunc
  rw [List.pairwise_reverse]
  exact foldl_insertLeft_descending k l [] List.Pairwise.nil

end sorting

theorem receivedSeqNrs_append (a b : List RxCall) :
    receivedSeqNrs (a ++ b) = receivedSeqNrs a ++ receivedSeqNrs b := by
  induction a with
  | nil => rfl
  | cons c rest ih => cases c <;> simp [receivedSeqNrs, ih]

theorem receivedSeqNrs_receiveCalls (f : fbInferer) (l : List ackedPkt) :
    receivedSeqNrs (receiveCalls f l) = l.map (fun p => p.seqNr) := by
  induction l with
  | nil => rfl
  | cons p rest ih =>
    have h := ih
    unfold receiveCalls at h
    simp [receiveCalls, receivedSeqNrs, h]

theorem enqueueAll_eq (f : fbInferer) (s : bufferState) (pkts : List ackedPkt)
    (hr : s.returned = false) : enqueueAll f s pkts = { s with buf := s.buf ++ pkts } := by
  unfold enqueueAll
  induction pkts generalizing s with
  | nil => simp
  | cons p rest ih =>
    simp only [List.map_cons, List.foldl_cons]
    have hstep : bufferStep f s (Event.acked p) = { s with buf := s.buf ++ [p] } := by
      simp [bufferStep, hr]
    rw [hstep, ih { s with buf := s.buf ++ [p] } hr]
    simp

/-- What a tick does when the batch is not empty: the batch is sorted, each packet of the sorted
batch is passed to `Receive`, then the reception model is queried once. -/
theorem callsOnTick_eq (f : fbInferer) (s : bufferState) (hr : s.returned = false)
    (hb : s.buf ≠ []) :
    ∃ last, (sortSlice (fun a b => decide (a.seqNr < b.seqNr)) s.buf).getLast? = some last ∧
      callsOnTick f s =
        receiveCalls f (sortSlice (fun a b => decide (a.seqNr < b.seqNr)) s.buf) ++
          [RxCall.CreateStandardizedFeedback (f.ntpTime last.receiveTS) true] := by
  have hperm := sortSlice_perm (fun p : ackedPkt => p.seqNr) s.buf
  have hne : sortSlice (fun a b : ackedPkt => decide (a.seqNr < b.seqNr)) s.buf ≠ [] := by
    intro h
    rw [h] at hperm
    exact hb (List.Perm.eq_nil hperm.symm)
  obtain ⟨last, hlast⟩ : ∃ last,
      (sortSlice (fun a b : ackedPkt => decide (a.seqNr < b.seqNr)) s.buf).getLast? = some last := by
    cases hl : (sortSlice (fun a b : ackedPkt => decide (a.seqNr < b.seqNr)) s.buf).getLast? with
    | none => exact absurd (List.getLast?_eq_none_iff.1 hl) hne
    | some last => exact ⟨last, rfl⟩
  refine ⟨last, hlast, ?_⟩
  have hlen : s.buf.length ≠ 0 := by
    intro h
    exact hb (List.length_eq_zero.1 h)
  simp [callsOnTick, bufferStep, hr, hlen, hlast]

theorem callsOnTick_of_nil (f : fbInferer) (s : bufferState) (hb : s.buf = []) :
    callsOnTick f s = [] := by
  by_cases hr : s.returned = true <;> simp [callsOnTick, bufferStep, hr, hb]

theorem buffer_tick_empty_noop_aux (f : fbInferer) (s : bufferState) (hb : s.buf = []) :
    bufferStep f s Event.tick = s := by
  by_cases hr : s.returned = true <;> simp [bufferStep, hr, hb]

theorem receivedSeqNrs_callsOnTick (f : fbInferer) (s : bufferState) (hr : s.returned = false) :
    receivedSeqNrs (callsOnTick f s) =
      (sortSlice (fun a b => decide (a.seqNr < b.seqNr)) s.buf).map (fun p => p.seqNr) := by
  by_cases hb : s.buf = []
  · rw [callsOnTick_of_nil f s hb, hb]
    rfl
  · obtain ⟨last, -, hc⟩ := callsOnTick_eq f s hr hb
    rw [hc, receivedSeqNrs_append, receivedSeqNrs_receiveCalls]
    simp [receivedSeqNrs]

theorem buffer_snoc (f : fbInferer) (events : List Event) (e : Event) :
    buffer f (events ++ [e]) = bufferStep f (buffer f events) e := by
  simp [buffer, List.foldl_append]

/-- The state after a tick that finds a non-empty batch. -/
theorem bufferStep_tick_eq (f : fbInferer) (s : bufferState) (hr : s.returned = false)
    (hb : s.buf ≠ []) :
    ∃ last, (sortSlice (fun a b => decide (a.seqNr < b.seqNr)) s.buf).getLast? = some last ∧
      bufferStep f s Event.tick =
        { buf := []
          rxCalls := s.rxCalls ++
            receiveCalls f (sortSlice (fun a b => decide (a.seqNr < b.seqNr)) s.buf) ++
            [RxCall.CreateStandardizedFeedback (f.ntpTime last.receiveTS) true]
          received :=
            if (f.rx (s.rxCalls ++
              receiveCalls f (sortSlice (fun a b => decide (a.seqNr < b.seqNr)) s.buf) ++
              [RxCall.CreateStandardizedFeedback (f.ntpTime last.receiveTS) true])).1
            then s.received ++
              [(f.rx (s.rxCalls ++
                receiveCalls f (sortSlice (fun a b => decide (a.seqNr < b.seqNr)) s.buf) ++
                [RxCall.CreateStandardizedFeedback (f.ntpTime last.receiveTS) true])).2]
            else s.received
          returned := false } := by
  obtain ⟨last, hlast, -⟩ := callsOnTick_eq f s hr hb
  refine ⟨last, hlast, ?_⟩
  have hlen : s.buf.length ≠ 0 := by
    intro h
    exact hb (List.length_eq_zero.1 h)
  simp [bufferStep, hr, hlen, hlast]

/-- Every packet in the batch, and every packet passed to `Receive`, was taken from `acked`. -/
theorem buffer_provenance (f : fbInferer) (events : List Event) :
    (∀ p ∈ (buffer f events).buf, Event.acked p ∈ events) ∧
    (∀ ntp ssrc size seqNr ce,
      RxCall.Receive ntp ssrc size seqNr ce ∈ (buffer f events).rxCalls →
      ∃ p, Event.acked p ∈ events ∧ ntp = f.ntpTime p.receiveTS ∧ ssrc = p.ssrc ∧
        size = p.size ∧ seqNr = p.seqNr ∧ ce = 0) := by
  induction events using List.reverseRecOn with
  | nil => simp [buffer, bufferState.init]
  | append_singleton evs e ih =>
    rw [buffer_snoc]
    obtain ⟨ihb, ihc⟩ := ih
    have weaken : ∀ {ntp ssrc size seqNr ce},
        RxCall.Receive ntp ssrc size seqNr ce ∈ (buffer f evs).rxCalls →
        ∃ p, Event.acked p ∈ evs ++ [e] ∧ ntp = f.ntpTime p.receiveTS ∧ ssrc = p.ssrc ∧
          size = p.size ∧ seqNr = p.seqNr ∧ ce = 0 := by
      intro ntp ssrc size seqNr ce h
      obtain ⟨p, hp, hrest⟩ := ihc ntp ssrc size seqNr ce h
      exact ⟨p, List.mem_append_left _ hp, hrest⟩
    by_cases hr : (buffer f evs).returned = true
    · have hs : bufferStep f (buffer f evs) e = buffer f evs := by simp [bufferStep, hr]
      rw [hs]
      exact ⟨fun p hp => List.mem_append_left _ (ihb p hp), fun _ _ _ _ _ h => weaken h⟩
    · have hr' : (buffer f evs).returned = false := by simpa using hr
      cases e with
      | acked q =>
        have hs : bufferStep f (buffer f evs) (Event.acked q) =
            { buffer f evs with buf := (buffer f evs).buf ++ [q] } := by
          simp [bufferStep, hr']
        rw [hs]
        refine ⟨?_, fun _ _ _ _ _ h => weaken h⟩
        intro p hp
        rcases List.mem_append.1 hp with h | h
        · exact List.mem_append_left _ (ihb p h)
        · have : p = q := by simpa using h
          rw [this]
          simp
      | cancel =>
        have hs : bufferStep f (buffer f evs) Event.cancel =
            { buffer f evs with returned := true } := by
          simp [bufferStep, hr']
        rw [hs]
        exact ⟨fun p hp => List.mem_append_left _ (ihb p hp), fun _ _ _ _ _ h => weaken h⟩
      | tick =>
        by_cases hb : (buffer f evs).buf = []
        · rw [(buffer_tick_empty_noop_aux f (buffer f evs) hb)]
          exact ⟨fun p hp => List.mem_append_left _ (ihb p hp), fun _ _ _ _ _ h => weaken h⟩
        · obtain ⟨last, -, hs⟩ := bufferStep_tick_eq f (buffer f evs) hr' hb
          rw [hs]
          refine ⟨by simp, ?_⟩
          intro ntp ssrc size seqNr ce h
          simp only [List.mem_append, List.mem_singleton] at h
          rcases h with (h | h) | h
          · exact weaken h
          · unfold receiveCalls at h
            obtain ⟨p, hp, hpe⟩ := List.mem_map.1 h
            have hp' : p ∈ (buffer f evs).buf :=
              (List.Perm.mem_iff (sortSlice_perm (fun p : ackedPkt => p.seqNr) _)).1 hp
            refine ⟨p, List.mem_append_left _ (ihb p hp'), ?_⟩
            injection hpe with h1 h2 h3 h4 h5
            exact ⟨h1.symm, h2.symm, h3.symm, h4.symm, h5.symm⟩
          · exact absurd h (by simp)

theorem afterLastTick_snoc (events : List Event) (e : Event) :
    afterLastTick (events ++ [e]) =
      if e = Event.tick then [] else afterLastTick events ++ [e] := by
  unfold afterLastTick
  rw [List.reverse_append, List.reverse_singleton, List.singleton_append, List.takeWhile_cons]
  by_cases h : e = Event.tick
  · simp [h]
  · simp [h]

theorem uptoLastTick_snoc (events : List Event) (e : Event) :
    uptoLastTick (events ++ [e]) =
      if e = Event.tick then events ++ [e] else uptoLastTick events := by
  unfold uptoLastTick
  rw [List.reverse_append, List.reverse_singleton, List.singleton_append, List.dropWhile_cons]
  by_cases h : e = Event.tick
  · simp [h]
  · simp [h]

theorem upto_append_after (events : List Event) :
    uptoLastTick events ++ afterLastTick events = events := by
  unfold uptoLastTick afterLastTick
  rw [← List.reverse_append, List.takeWhile_append_dropWhile, List.reverse_reverse]

theorem ackedPkts_append (a b : List Event) : ackedPkts (a ++ b) = ackedPkts a ++ ackedPkts b := by
  simp [ackedPkts, List.filterMap_append]

theorem receivesOf_append (a b : List RxCall) :
    receivesOf (a ++ b) = receivesOf a ++ receivesOf b := by
  simp [receivesOf, List.filter_append]

theorem receivesOf_receiveCalls (f : fbInferer) (l : List ackedPkt) :
    receivesOf (receiveCalls f l) = receiveCalls f l := by
  induction l with
  | nil => rfl
  | cons p rest ih =>
    unfold receiveCalls at ih ⊢
    simp only [List.map_cons, receivesOf, List.filter_cons]
    unfold receivesOf at ih
    rw [ih]
    rfl

/-- While no cancellation has been taken, the batch holds the packets taken since the last tick
and the `Receive` calls made are those of the packets taken before it, each once. -/
theorem buffer_batch_invariant (f : fbInferer) (events : List Event)
    (hc : Event.cancel ∉ events) :
    (buffer f events).returned = false ∧
    (buffer f events).buf = ackedPkts (afterLastTick events) ∧
    (receivesOf (buffer f events).rxCalls).Perm
      (receiveCalls f (ackedPkts (uptoLastTick events))) := by
  induction events using List.reverseRecOn with
  | nil =>
    simp [buffer, bufferState.init, ackedPkts, afterLastTick, uptoLastTick, receivesOf,
      receiveCalls]
  | append_singleton evs e ih =>
    have hc' : Event.cancel ∉ evs := fun h => hc (List.mem_append_left _ h)
    obtain ⟨hr, hb, hp⟩ := ih hc'
    rw [buffer_snoc, afterLastTick_snoc, uptoLastTick_snoc]
    cases e with
    | cancel => exact absurd (List.mem_append_right _ (List.mem_singleton_self _)) hc
    | acked q =>
      have hs : bufferStep f (buffer f evs) (Event.acked q) =
          { buffer f evs with buf := (buffer f evs).buf ++ [q] } := by
        simp [bufferStep, hr]
      rw [hs]
      refine ⟨hr, ?_, ?_⟩
      · simp [hb, ackedPkts_append, ackedPkts]
      · simpa using hp
    | tick =>
      simp only [if_true]
      have hall : ackedPkts (evs ++ [Event.tick]) =
          ackedPkts (uptoLastTick evs) ++ ackedPkts (afterLastTick evs) := by
        rw [ackedPkts_append, ← ackedPkts_append (uptoLastTick evs), upto_append_after]
        simp [ackedPkts]
      by_cases hnil : (buffer f evs).buf = []
      · rw [buffer_tick_empty_noop_aux f (buffer f evs) hnil]
        refine ⟨hr, ?_, ?_⟩
        · rw [hnil]
          rfl
        · rw [hall, ← hb, hnil, List.append_nil]
          exact hp
      · obtain ⟨last, -, hs⟩ := bufferStep_tick_eq f (buffer f evs) hr hnil
        rw [hs]
        refine ⟨rfl, rfl, ?_⟩
        simp only [receivesOf_append, receivesOf_receiveCalls]
        have hq : receivesOf
            [RxCall.CreateStandardizedFeedback (f.ntpTime last.receiveTS) true] = [] := rfl
        rw [hq, List.append_nil, hall]
        unfold receiveCalls
        rw [List.map_append]
        refine List.Perm.append hp ?_
        rw [← hb]
        exact (sortSlice_perm (fun p : ackedPkt => p.seqNr) _).map _

/-- The `Receive` calls of a tick are those of the packets in the batch, each once. -/
theorem receivesOf_callsOnTick (f : fbInferer) (s : bufferState) (hr : s.returned = false) :
    (receivesOf (callsOnTick f s)).Perm (receiveCalls f s.buf) := by
  by_cases hb : s.buf = []
  · rw [callsOnTick_of_nil f s hb, hb]
    exact List.Perm.refl _
  · obtain ⟨last, -, hc⟩ := callsOnTick_eq f s hr hb
    rw [hc, receivesOf_append, receivesOf_receiveCalls]
    have hq : receivesOf
        [RxCall.CreateStandardizedFeedback (f.ntpTime last.receiveTS) true] = [] := rfl
    rw [hq, List.append_nil]
    unfold receiveCalls
    exact (sortSlice_perm (fun p : ackedPkt => p.seqNr) _).map _

end rtc

/-! ## Auxiliary results: closing the telemetry recorder -/

namespace utils

theorem seqInv_step (s s' : CloseState) (h : seqInv s) (hs : s' ∈ s.next) : seqInv s' := by
  rcases s with ⟨d, l, c1, c2⟩
  cases d <;> cases l <;> cases c1 <;> cases c2 <;>
    simp [CloseState.next, closeStep, seqInv] at h hs ⊢ <;>
    (try (rcases hs with rfl | rfl | rfl <;> simp))

theorem concInv_step (s s' : CloseState) (h : concInv s) (hs : s' ∈ s.next) : concInv s' := by
  rcases s with ⟨d, l, c1, c2⟩
  cases d <;> cases l <;> cases c1 <;> cases c2 <;>
    simp [CloseState.next, closeStep, concInv] at h hs ⊢ <;>
    (try (rcases hs with rfl | rfl | rfl <;> simp))

theorem reachable_seqInv (s : CloseState) (h : CloseState.Reachable closeTwiceSequential s) :
    seqInv s := by
  induction h with
  | start => simp [seqInv, closeTwiceSequential]
  | step _ hs ih => exact seqInv_step _ _ ih hs

theorem reachable_concInv (s : CloseState) (h : CloseState.Reachable closeTwiceConcurrent s) :
    concInv s := by
  induction h with
  | start => simp [concInv, closeTwiceConcurrent]
  | step _ hs ih => exact concInv_step _ _ ih hs

theorem closeTwiceSequentialRun_closed :
    ∀ s ∈ closeTwiceSequentialRun, ∀ s' ∈ s.next, s' ∈ closeTwiceSequentialRun := by
  simp [closeTwiceSequentialRun, closeTwiceSequential, CloseState.next, closeStep]

theorem reachable_mem_run (s : CloseState) (h : CloseState.Reachable closeTwiceSequential s) :
    s ∈ closeTwiceSequentialRun := by
  induction h with
  | start => simp [closeTwiceSequentialRun]
  | step _ hs ih => exact closeTwiceSequentialRun_closed _ ih _ hs

end utils

/-! ## Auxiliary results: the lines of the telemetry recorder -/

namespace utils

theorem toDigitsCore_mem (b : Nat) (fuel n : Nat) (acc : List Char) (c : Char)
    (h : c ∈ Nat.toDigitsCore b fuel n acc) : c ∈ acc ∨ ∃ m, c = Nat.digitChar (m % b) := by
  induction fuel generalizing n acc with
  | zero => exact Or.inl (by simpa [Nat.toDigitsCore] using h)
  | succ fuel ih =>
    simp only [Nat.toDigitsCore] at h
    split at h
    · rcases List.mem_cons.1 h with h | h
      · exact Or.inr ⟨n, h⟩
      · exact Or.inl h
    · rcases ih _ _ h with h | h
      · rcases List.mem_cons.1 h with h | h
        · exact Or.inr ⟨n, h⟩
        · exact Or.inl h
      · exact Or.inr h

theorem toDigits_mem (b n : Nat) (c : Char) (h : c ∈ Nat.toDigits b n) :
    ∃ m, c = Nat.digitChar (m % b) := by
  rcases toDigitsCore_mem b (n + 1) n [] c h with h | h
  · simp at h
  · exact h

theorem digitChar_mod_ten (m : Nat) : Nat.digitChar (m % 10) ∈ "0123456789".data := by
  have h : m % 10 < 10 := Nat.mod_lt _ (by norm_num)
  generalize m % 10 = d at h
  interval_cases d <;> decide

theorem digitChar_mod_sixteen (m : Nat) :
    Nat.digitChar (m % 16) ∈ "0123456789abcdef".data := by
  have h : m % 16 < 16 := Nat.mod_lt _ (by norm_num)
  generalize m % 16 = d at h
  interval_cases d <;> decide

theorem fmtDecimal_natCast (n : Nat) : fmtDecimal (n : Int) = String.mk (Nat.toDigits 10 n) := rfl

/-- A natural number is printed in decimal digits. -/
theorem fmtDecimal_nat_digits (n : Nat) (c : Char) (h : c ∈ (fmtDecimal (n : Int)).data) :
    c ∈ "0123456789".data := by
  rw [fmtDecimal_natCast] at h
  obtain ⟨m, rfl⟩ := toDigits_mem 10 n c h
  exact digitChar_mod_ten m

/-- An integer is printed in decimal digits, with a minus sign when negative. -/
theorem fmtDecimal_digits (x : Int) (c : Char) (h : c ∈ (fmtDecimal x).data) :
    c ∈ "-0123456789".data := by
  cases x with
  | ofNat n =>
    have := fmtDecimal_nat_digits n c h
    revert this
    generalize c = c'
    simp only [List.mem_cons]
    tauto
  | negSucc n =>
    simp only [fmtDecimal, String.data_append, List.mem_append] at h
    rcases h with h | h
    · have : c = '-' := by simpa using h
      rw [this]
      decide
    · obtain ⟨m, rfl⟩ := toDigits_mem 10 (n + 1) c h
      have := digitChar_mod_ten m
      revert this
      generalize Nat.digitChar (m % 10) = c'
      simp only [List.mem_cons]
      tauto

/-- An unsigned number is printed in lower-case hexadecimal digits. -/
theorem fmtHex_digits (n : Nat) (c : Char) (h : c ∈ (fmtHex n).data) :
    c ∈ "0123456789abcdef".data := by
  obtain ⟨m, rfl⟩ := toDigits_mem 16 n c h
  exact digitChar_mod_sixteen m

/-- A text made of decimal digits, hexadecimal digits and minus signs holds neither a tab nor a
newline. -/
theorem no_tab_of_digits (s : String) (h : ∀ c ∈ s.data, c ∈ "-0123456789abcdef".data) :
    '\t' ∉ s.data ∧ '\n' ∉ s.data := by
  constructor
  · intro hc
    exact absurd (h _ hc) (by decide)
  · intro hc
    exact absurd (h _ hc) (by decide)

theorem fmtDecimal_clean (x : Int) : '\t' ∉ (fmtDecimal x).data ∧ '\n' ∉ (fmtDecimal x).data := by
  apply no_tab_of_digits
  intro c hc
  have := fmtDecimal_digits x c hc
  revert this
  generalize c = c'
  simp only [List.mem_cons]
  tauto

theorem fmtHex_clean (n : Nat) : '\t' ∉ (fmtHex n).data ∧ '\n' ∉ (fmtHex n).data := by
  apply no_tab_of_digits
  intro c hc
  have := fmtHex_digits n c hc
  revert this
  generalize c = c'
  simp only [List.mem_cons]
  tauto

/-- Nine fields without tab or newline, joined by tabs and followed by a newline, make a text
with eight tabs and one newline, the newline last. -/
theorem nine_fields_line (a1 a2 a3 a4 a5 a6 a7 a8 a9 : String)
    (h1 : '\t' ∉ a1.data ∧ '\n' ∉ a1.data) (h2 : '\t' ∉ a2.data ∧ '\n' ∉ a2.data)
    (h3 : '\t' ∉ a3.data ∧ '\n' ∉ a3.data) (h4 : '\t' ∉ a4.data ∧ '\n' ∉ a4.data)
    (h5 : '\t' ∉ a5.data ∧ '\n' ∉ a5.data) (h6 : '\t' ∉ a6.data ∧ '\n' ∉ a6.data)
    (h7 : '\t' ∉ a7.data ∧ '\n' ∉ a7.data) (h8 : '\t' ∉ a8.data ∧ '\n' ∉ a8.data)
    (h9 : '\t' ∉ a9.data ∧ '\n' ∉ a9.data) :
    (String.intercalate "\t" [a1, a2, a3, a4, a5, a6, a7, a8, a9] ++ "\n").data.count '\t' = 8 ∧
    (String.intercalate "\t" [a1, a2, a3, a4, a5, a6, a7, a8, a9] ++ "\n").data.count '\n' = 1 ∧
    (String.intercalate "\t" [a1, a2, a3, a4, a5, a6, a7, a8, a9] ++ "\n").data.getLast? =
      some '\n' := by
  have ht : "\t".data = ['\t'] := rfl
  have hn : "\n".data = ['\n'] := rfl
  refine ⟨?_, ?_, ?_⟩
  · simp [String.intercalate, String.intercalate.go, String.data_append, List.count_append, ht, hn,
      List.count_eq_zero_of_not_mem h1.1, List.count_eq_zero_of_not_mem h2.1,
      List.count_eq_zero_of_not_mem h3.1, List.count_eq_zero_of_not_mem h4.1,
      List.count_eq_zero_of_not_mem h5.1, List.count_eq_zero_of_not_mem h6.1,
      List.count_eq_zero_of_not_mem h7.1, List.count_eq_zero_of_not_mem h8.1,
      List.count_eq_zero_of_not_mem h9.1]
  · simp [String.intercalate, String.intercalate.go, String.data_append, List.count_append, ht, hn,
      List.count_eq_zero_of_not_mem h1.2, List.count_eq_zero_of_not_mem h2.2,
      List.count_eq_zero_of_not_mem h3.2, List.count_eq_zero_of_not_mem h4.2,
      List.count_eq_zero_of_not_mem h5.2, List.count_eq_zero_of_not_mem h6.2,
      List.count_eq_zero_of_not_mem h7.2, List.count_eq_zero_of_not_mem h8.2,
      List.count_eq_zero_of_not_mem h9.2]
  · simp [String.data_append, hn]

theorem boolToChar_eq (b : Bool) : boolToChar b = if b then "1" else "0" := by
  cases b <;> rfl

/-- The text of a data-packet line is its fields joined by tabs, followed by a newline. -/
theorem rtp_line_eq (direction : String) (p : rtpPacket) :
    direction ++ "\t" ++ rtpPacket.String p ++ "\n" =
      String.intercalate "\t" (rtpLineFields direction p) ++ "\n" := by
  simp only [rtpPacket.String, rtpLineFields, String.intercalate, String.intercalate.go,
    boolToChar_eq, String.append_assoc]

theorem rtpLineFields_clean (direction : String) (p : rtpPacket)
    (hd : direction = "in:" ∨ direction = "out:") :
    ∀ field ∈ rtpLineFields direction p, '\t' ∉ field.data ∧ '\n' ∉ field.data := by
  intro field hf
  simp only [rtpLineFields, List.mem_cons, List.mem_singleton, List.not_mem_nil, or_false] at hf
  rcases hf with rfl | rfl | rfl | rfl | rfl | rfl | rfl | rfl | rfl
  · rcases hd with rfl | rfl <;> decide
  · decide
  · exact fmtDecimal_clean _
  · exact fmtDecimal_clean _
  · exact fmtHex_clean _
  · exact fmtDecimal_clean _
  · exact fmtDecimal_clean _
  · cases p.Marker <;> decide
  · exact fmtDecimal_clean _

end utils

/-! ## Auxiliary results: rate adaptation -/

namespace udp

/-- The field `targetBitrate` holds the estimate applied last (zero when none was), every
applied estimate is positive, and each was passed to `SetBitRate` in kbit/s. -/
theorem afterEstimates_invariant (P : Type) (bs : List Int) :
    (afterEstimates P bs).targetBitrate = ((afterEstimates P bs).logged.getLast?).getD 0 ∧
    (∀ x ∈ (afterEstimates P bs).logged, 0 < x) ∧
    (afterEstimates P bs).setBitRateCalls =
      (afterEstimates P bs).logged.map (fun b => (Int.tdiv b 1000).toNat) := by
  induction bs using List.reverseRecOn with
  | nil => simp [afterEstimates, gstWriter.init]
  | append_singleton bs b ih =>
    have hs : afterEstimates P (bs ++ [b]) = applyEstimate (afterEstimates P bs) b := by
      simp [afterEstimates, List.foldl_append]
    rw [hs]
    obtain ⟨h1, h2, h3⟩ := ih
    unfold applyEstimate
    split
    · next hc =>
      simp only [Bool.and_eq_true, decide_eq_true_eq] at hc
      refine ⟨by simp, ?_, by simp [h3]⟩
      intro x hx
      rcases List.mem_append.1 hx with h | h
      · exact h2 x h
      · have : x = b := by simpa using h
        rw [this]
        exact hc.2
    · exact ⟨h1, h2, h3⟩

end udp

/-! ## The acknowledgment collector: order of submission -/

namespace rtc

/-- C1 (as amended): whatever packets are taken from `acked` between two ticks, in whatever
order, the sequence numbers passed to `rx.Receive` on the next tick are those of the packets, in
non-decreasing order; they are strictly ascending when no two of the packets carry the same
sequence number. -/
theorem buffer_tick_seqNrs_ascending (f : fbInferer) (s : bufferState) (pkts : List ackedPkt)
    (hr : s.returned = false) (hb : s.buf = []) :
    List.Sorted (· ≤ ·) (receivedSeqNrs (callsOnTick f (enqueueAll f s pkts))) ∧
    (receivedSeqNrs (callsOnTick f (enqueueAll f s pkts))).Perm (pkts.map (fun p => p.seqNr)) ∧
    ((pkts.map (fun p => p.seqNr)).Nodup →
      List.Sorted (· < ·) (receivedSeqNrs (callsOnTick f (enqueueAll f s pkts)))) := by
  have hs : receivedSeqNrs (callsOnTick f (enqueueAll f s pkts)) =
      (sortSlice (fun a b => decide (a.seqNr < b.seqNr)) pkts).map (fun p => p.seqNr) := by
    rw [enqueueAll_eq f s pkts hr, receivedSeqNrs_callsOnTick f { s with buf := s.buf ++ pkts } hr]
    simp [hb]
  have hsorted : List.Sorted (· ≤ ·)
      ((sortSlice (fun a b => decide (a.seqNr < b.seqNr)) pkts).map (fun p => p.seqNr)) := by
    unfold List.Sorted
    rw [List.pairwise_map]
    exact sortSlice_sorted (fun p : ackedPkt => p.seqNr) pkts
  have hperm : ((sortSlice (fun a b => decide (a.seqNr < b.seqNr)) pkts).map
      (fun p => p.seqNr)).Perm (pkts.map (fun p => p.seqNr)) :=
    (sortSlice_perm (fun p : ackedPkt => p.seqNr) pkts).map _
  rw [hs]
  exact ⟨hsorted, hperm, fun hnd => hsorted.lt_of_le ((List.Perm.nodup_iff hperm).2 hnd)⟩

/-- Witness for `buffer_tick_seqNrs_ascending`: the packets 5, 3, 4 acknowledged after start. -/
theorem buffer_tick_seqNrs_ascending_witness :
    List.Sorted (· ≤ ·) (receivedSeqNrs (callsOnTick (newFBInferer (fun _ => (false, [])) 0)
      (enqueueAll (newFBInferer (fun _ => (false, [])) 0) bufferState.init
        [⟨10, 1, 1200, 5⟩, ⟨20, 1, 1200, 3⟩, ⟨30, 1, 1200, 4⟩]))) ∧
    (receivedSeqNrs (callsOnTick (newFBInferer (fun _ => (false, [])) 0)
      (enqueueAll (newFBInferer (fun _ => (false, [])) 0) bufferState.init
        [⟨10, 1, 1200, 5⟩, ⟨20, 1, 1200, 3⟩, ⟨30, 1, 1200, 4⟩]))).Perm [5, 3, 4] ∧
    List.Sorted (· < ·) (receivedSeqNrs (callsOnTick (newFBInferer (fun _ => (false, [])) 0)
      (enqueueAll (newFBInferer (fun _ => (false, [])) 0) bufferState.init
        [⟨10, 1, 1200, 5⟩, ⟨20, 1, 1200, 3⟩, ⟨30, 1, 1200, 4⟩]))) := by
  obtain ⟨h1, h2, h3⟩ :=
    buffer_tick_seqNrs_ascending (newFBInferer (fun _ => (false, [])) 0) bufferState.init
      [⟨10, 1, 1200, 5⟩, ⟨20, 1, 1200, 3⟩, ⟨30, 1, 1200, 4⟩] rfl rfl
  exact ⟨h1, h2, h3 (by decide)⟩

/-- C1 (as stated) fails: two packets with the same sequence number 3 (of the flows 1 and 2),
acknowledged between two ticks, are passed to `rx.Receive` with the sequence numbers 3, 3, which
is not strictly ascending. -/
theorem buffer_tick_seqNrs_not_strict :
    receivedSeqNrs (callsOnTick (newFBInferer (fun _ => (false, [])) 1700000000000000000)
      (enqueueAll (newFBInferer (fun _ => (false, [])) 1700000000000000000) bufferState.init
        [{ receiveTS := 1700000001000000000, ssrc := 1, size := 1200, seqNr := 3 },
         { receiveTS := 1700000001000000000, ssrc := 2, size := 1200, seqNr := 3 }])) = [3, 3] ∧
    ¬ List.Sorted (· < ·)
      (receivedSeqNrs (callsOnTick (newFBInferer (fun _ => (false, [])) 1700000000000000000)
        (enqueueAll (newFBInferer (fun _ => (false, [])) 1700000000000000000) bufferState.init
          [{ receiveTS := 1700000001000000000, ssrc := 1, size := 1200, seqNr := 3 },
           { receiveTS := 1700000001000000000, ssrc := 2, size := 1200, seqNr := 3 }]))) := by
  have h : receivedSeqNrs (callsOnTick (newFBInferer (fun _ => (false, [])) 1700000000000000000)
      (enqueueAll (newFBInferer (fun _ => (false, [])) 1700000000000000000) bufferState.init
        [{ receiveTS := 1700000001000000000, ssrc := 1, size := 1200, seqNr := 3 },
         { receiveTS := 1700000001000000000, ssrc := 2, size := 1200, seqNr := 3 }])) = [3, 3] := by
    rw [enqueueAll_eq _ _ _ rfl, receivedSeqNrs_callsOnTick _ _ rfl]
    decide
  rw [h]
  exact ⟨rfl, by decide⟩

/-- C2: when the batch accumulated before a tick is not empty, the packets passed to
`rx.Receive` on that tick are a permutation of the batch, in non-decreasing order of sequence
number (the `Receive` calls are followed by the single query of the reception model); in
particular three packets with the sequence numbers 5, 3, 4, acknowledged in that order, are
submitted in the order 3, 4, 5. -/
theorem buffer_tick_submits_sorted_batch (f : fbInferer) (s : bufferState)
    (pkts : List ackedPkt) (hr : s.returned = false) (hb : s.buf = []) (hne : pkts ≠ []) :
    (∃ sorted last, sorted.Perm pkts ∧
      sorted.Pairwise (fun a b => a.seqNr ≤ b.seqNr) ∧
      sorted.getLast? = some last ∧
      callsOnTick f (enqueueAll f s pkts) =
        receiveCalls f sorted ++
          [RxCall.CreateStandardizedFeedback (f.ntpTime last.receiveTS) true]) ∧
    (∀ a b c : ackedPkt, a.seqNr = 5 → b.seqNr = 3 → c.seqNr = 4 → pkts = [a, b, c] →
      callsOnTick f (enqueueAll f s pkts) =
        receiveCalls f [b, c, a] ++
          [RxCall.CreateStandardizedFeedback (f.ntpTime a.receiveTS) true] ∧
      receivedSeqNrs (callsOnTick f (enqueueAll f s pkts)) = [3, 4, 5]) := by
  have hbuf : (enqueueAll f s pkts).buf = pkts := by
    rw [enqueueAll_eq f s pkts hr]
    simp [hb]
  have hret : (enqueueAll f s pkts).returned = false := by
    rw [enqueueAll_eq f s pkts hr]
    exact hr
  have hne' : (enqueueAll f s pkts).buf ≠ [] := by
    rw [hbuf]
    exact hne
  obtain ⟨last, hlast, hcalls⟩ := callsOnTick_eq f (enqueueAll f s pkts) hret hne'
  rw [hbuf] at hlast hcalls
  refine ⟨⟨_, last, sortSlice_perm (fun p : ackedPkt => p.seqNr) pkts,
    sortSlice_sorted (fun p : ackedPkt => p.seqNr) pkts, hlast, hcalls⟩, ?_⟩
  intro a b c ha hb' hc hp
  have hsort : sortSlice (fun x y : ackedPkt => decide (x.seqNr < y.seqNr)) pkts = [b, c, a] := by
    rw [hp]
    simp [sortSlice, insertionSortLessFunc, insertLeft, ha, hb', hc]
  rw [hsort] at hlast hcalls
  have hl : last = a := by
    simp at hlast
    exact hlast.symm
  rw [hl] at hcalls
  refine ⟨hcalls, ?_⟩
  rw [hcalls, receivedSeqNrs_append, receivedSeqNrs_receiveCalls]
  simp [receivedSeqNrs, ha, hb', hc]

/-- Witness for `buffer_tick_submits_sorted_batch`: the packets 5, 3, 4 acknowledged after
start. -/
theorem buffer_tick_submits_sorted_batch_witness :
    (∃ sorted last, sorted.Perm [(⟨10, 1, 1200, 5⟩ : ackedPkt), ⟨20, 1, 1200, 3⟩, ⟨30, 1, 1200, 4⟩] ∧
      sorted.Pairwise (fun a b => a.seqNr ≤ b.seqNr) ∧
      sorted.getLast? = some last ∧
      callsOnTick (newFBInferer (fun _ => (false, [])) 0)
        (enqueueAll (newFBInferer (fun _ => (false, [])) 0) bufferState.init
          [⟨10, 1, 1200, 5⟩, ⟨20, 1, 1200, 3⟩, ⟨30, 1, 1200, 4⟩]) =
        receiveCalls (newFBInferer (fun _ => (false, [])) 0) sorted ++
          [RxCall.CreateStandardizedFeedback
            ((newFBInferer (fun _ => (false, [])) 0).ntpTime last.receiveTS) true]) ∧
    callsOnTick (newFBInferer (fun _ => (false, [])) 0)
      (enqueueAll (newFBInferer (fun _ => (false, [])) 0) bufferState.init
        [⟨10, 1, 1200, 5⟩, ⟨20, 1, 1200, 3⟩, ⟨30, 1, 1200, 4⟩]) =
      receiveCalls (newFBInferer (fun _ => (false, [])) 0)
        [⟨20, 1, 1200, 3⟩, ⟨30, 1, 1200, 4⟩, ⟨10, 1, 1200, 5⟩] ++
        [RxCall.CreateStandardizedFeedback
          ((newFBInferer (fun _ => (false, [])) 0).ntpTime 10) true] ∧
    receivedSeqNrs (callsOnTick (newFBInferer (fun _ => (false, [])) 0)
      (enqueueAll (newFBInferer (fun _ => (false, [])) 0) bufferState.init
        [⟨10, 1, 1200, 5⟩, ⟨20, 1, 1200, 3⟩, ⟨30, 1, 1200, 4⟩])) = [3, 4, 5] := by
  obtain ⟨h1, h2⟩ :=
    buffer_tick_submits_sorted_batch (newFBInferer (fun _ => (false, [])) 0) bufferState.init
      [⟨10, 1, 1200, 5⟩, ⟨20, 1, 1200, 3⟩, ⟨30, 1, 1200, 4⟩] rfl rfl (by simp)
  exact ⟨h1, h2 ⟨10, 1, 1200, 5⟩ ⟨20, 1, 1200, 3⟩ ⟨30, 1, 1200, 4⟩ rfl rfl rfl rfl⟩

end rtc

/-! ## The telemetry recorder: calling `Close` twice -/

namespace utils

/-- C3 fails on the code.  When one goroutine calls `Close()` twice on a recorder whose loop is
running, the first call returns and the second never does: it waits at `<-r.closed` for a value
that the loop, which has finished, will not send; every run ends in that state.  When two
goroutines call `Close()` at the same time, the two calls never both return, and a run in which
the second `close(r.done)` panics is possible. -/
theorem Close_twice_second_call_never_returns :
    (∀ s, CloseState.Reachable closeTwiceSequential s → s.second ≠ ClosePc.returned) ∧
    CloseState.Reachable closeTwiceSequential
      { doneClosed := true, loop := LoopPc.exited, first := ClosePc.returned,
        second := ClosePc.waiting } ∧
    (∀ s, CloseState.Reachable closeTwiceSequential s → s.next = [] →
      s = { doneClosed := true, loop := LoopPc.exited, first := ClosePc.returned,
            second := ClosePc.waiting }) ∧
    (∀ s, CloseState.Reachable closeTwiceConcurrent s →
      ¬ (s.first = ClosePc.returned ∧ s.second = ClosePc.returned)) ∧
    CloseState.Reachable closeTwiceConcurrent
      { doneClosed := true, loop := LoopPc.selecting, first := ClosePc.waiting,
        second := ClosePc.panicked } := by
  refine ⟨fun s h => (reachable_seqInv s h).2.2, ?_, ?_, fun s h => (reachable_concInv s h).2, ?_⟩
  · have h0 : CloseState.Reachable closeTwiceSequential closeTwiceSequential :=
      CloseState.Reachable.start
    have h1 : CloseState.Reachable closeTwiceSequential
        ⟨false, LoopPc.selecting, ClosePc.closing, ClosePc.notCalled⟩ := h0.step (by decide)
    have h2 : CloseState.Reachable closeTwiceSequential
        ⟨true, LoopPc.selecting, ClosePc.waiting, ClosePc.notCalled⟩ := h1.step (by decide)
    have h3 : CloseState.Reachable closeTwiceSequential
        ⟨true, LoopPc.sendingClosed, ClosePc.waiting, ClosePc.notCalled⟩ := h2.step (by decide)
    have h4 : CloseState.Reachable closeTwiceSequential
        ⟨true, LoopPc.exited, ClosePc.returned, ClosePc.notCalled⟩ := h3.step (by decide)
    have h5 : CloseState.Reachable closeTwiceSequential
        ⟨true, LoopPc.exited, ClosePc.returned, ClosePc.entered⟩ := h4.step (by decide)
    exact h5.step (by decide)
  · intro s h hn
    have hm := reachable_mem_run s h
    simp only [closeTwiceSequentialRun, closeTwiceSequential, List.mem_cons, List.mem_singleton,
      List.not_mem_nil, or_false] at hm
    rcases hm with rfl | rfl | rfl | rfl | rfl | rfl | rfl <;>
      simp [CloseState.next, closeStep] at hn ⊢
  · have h0 : CloseState.Reachable closeTwiceConcurrent closeTwiceConcurrent :=
      CloseState.Reachable.start
    have h1 : CloseState.Reachable closeTwiceConcurrent
        ⟨false, LoopPc.selecting, ClosePc.closing, ClosePc.entered⟩ := h0.step (by decide)
    have h2 : CloseState.Reachable closeTwiceConcurrent
        ⟨false, LoopPc.selecting, ClosePc.closing, ClosePc.closing⟩ := h1.step (by decide)
    have h3 : CloseState.Reachable closeTwiceConcurrent
        ⟨true, LoopPc.selecting, ClosePc.waiting, ClosePc.closing⟩ := h2.step (by decide)
    exact h3.step (by decide)

end utils

/-! ## The time base -/

namespace rtc

/-- C4 (as amended): for every epoch `t0` and instant `tx` whose elapsed time `tt`, as the code
computes it in `float64` (`(float64(secs) + float64(usecs)*1e-6) - t0`, each operation rounded),
satisfies `0 ≤ tt < 2^48`, `getTimeBetweenNTP(t0, tx)` equals `floor(tt * 65536) mod 2^32`; hence
it is below `2^32`, its high 16 bits are the whole seconds of `tt` mod 65536 and its low 16 bits
are the fractional second of `tt` scaled by 65536.  When the epoch is a `float64` between `2^30`
and `2^31` and the Unix seconds of the instant are between `2^30` and `2^31 - 1`, `tt` is within
`2^-22` seconds of the exact elapsed time, so that the value is
`floor((tx - t0) * 65536) mod 2^32` up to one unit. -/
theorem getTimeBetweenNTP_eq_floor_of_float_elapsed (t0 : ℚ) (tx : Time)
    (h0 : 0 ≤ elapsed t0 tx) (h1 : elapsed t0 tx < 281474976710656) :
    ∃ r : Nat, getTimeBetweenNTP t0 tx = some r ∧
      (r : Int) = ⌊elapsed t0 tx * 65536⌋ % 4294967296 ∧
      r < 4294967296 ∧
      ((r / 65536 : Nat) : Int) = ⌊elapsed t0 tx⌋ % 65536 ∧
      ((r % 65536 : Nat) : Int) = ⌊(elapsed t0 tx - (⌊elapsed t0 tx⌋ : ℚ)) * 65536⌋ ∧
      (float64.round t0 = t0 → 1073741824 ≤ t0 → t0 < 2147483648 →
        1073741824 ≤ Time.Unix tx → Time.Unix tx < 2147483647 →
        |elapsed t0 tx - exactElapsed t0 tx| < 1 / 4194304 ∧
        ∃ ε : Int, |ε| ≤ 1 ∧
          (r : Int) = (⌊exactElapsed t0 tx * 65536⌋ + ε) % 4294967296) := by
  refine ⟨⌊elapsed t0 tx * 65536⌋.toNat % 4294967296, getTimeBetweenNTP_eq t0 tx h0 h1, ?_⟩
  have hN : 0 ≤ ⌊elapsed t0 tx * 65536⌋ := Int.floor_nonneg.2 (by positivity)
  have hfrac : ⌊(elapsed t0 tx - (⌊elapsed t0 tx⌋ : ℚ)) * 65536⌋ =
      ⌊elapsed t0 tx * 65536⌋ - 65536 * ⌊elapsed t0 tx⌋ := by
    have : (elapsed t0 tx - (⌊elapsed t0 tx⌋ : ℚ)) * 65536 =
        elapsed t0 tx * 65536 - ((65536 * ⌊elapsed t0 tx⌋ : Int) : ℚ) := by
      push_cast
      ring
    rw [this, Int.floor_sub_int]
  have hf0 : 0 ≤ ⌊(elapsed t0 tx - (⌊elapsed t0 tx⌋ : ℚ)) * 65536⌋ := by
    apply Int.floor_nonneg.2
    have := Int.floor_le (elapsed t0 tx)
    apply mul_nonneg _ (by norm_num)
    linarith
  have hf1 : ⌊(elapsed t0 tx - (⌊elapsed t0 tx⌋ : ℚ)) * 65536⌋ < 65536 := by
    apply Int.floor_lt.2
    have := Int.lt_floor_add_one (elapsed t0 tx)
    push_cast
    linarith
  have hS : 0 ≤ ⌊elapsed t0 tx⌋ := Int.floor_nonneg.2 h0
  have hclose : float64.round t0 = t0 → 1073741824 ≤ t0 → t0 < 2147483648 →
      1073741824 ≤ Time.Unix tx → Time.Unix tx < 2147483647 →
      |elapsed t0 tx - exactElapsed t0 tx| < 1 / 4194304 ∧
      ∃ ε : Int, |ε| ≤ 1 ∧
        ⌊elapsed t0 tx * 65536⌋ = ⌊exactElapsed t0 tx * 65536⌋ + ε := by
    intro hf ha hb hs1 hs2
    have hc := (elapsed_close t0 tx hf ha hb hs1 hs2).1
    refine ⟨hc, ⌊elapsed t0 tx * 65536⌋ - ⌊exactElapsed t0 tx * 65536⌋, ?_, by ring⟩
    obtain ⟨c1, c2⟩ := abs_lt.1 hc
    have a1 := Int.floor_le (elapsed t0 tx * 65536)
    have a2 := Int.lt_floor_add_one (elapsed t0 tx * 65536)
    have b1 := Int.floor_le (exactElapsed t0 tx * 65536)
    have b2 := Int.lt_floor_add_one (exactElapsed t0 tx * 65536)
    have u : ((⌊elapsed t0 tx * 65536⌋ : Int) : ℚ) < (⌊exactElapsed t0 tx * 65536⌋ : Int) + 2 := by
      linarith
    have l : ((⌊exactElapsed t0 tx * 65536⌋ : Int) : ℚ) < (⌊elapsed t0 tx * 65536⌋ : Int) + 2 := by
      linarith
    have u' : ⌊elapsed t0 tx * 65536⌋ < ⌊exactElapsed t0 tx * 65536⌋ + 2 := by exact_mod_cast u
    have l' : ⌊exactElapsed t0 tx * 65536⌋ < ⌊elapsed t0 tx * 65536⌋ + 2 := by exact_mod_cast l
    rw [abs_le]
    constructor <;> omega
  rw [hfrac] at hf0 hf1 ⊢
  generalize ⌊elapsed t0 tx * 65536⌋ = N at *
  generalize ⌊elapsed t0 tx⌋ = S at *
  obtain ⟨n, rfl⟩ := Int.eq_ofNat_of_zero_le hN
  obtain ⟨s, rfl⟩ := Int.eq_ofNat_of_zero_le hS
  simp only [Int.toNat_ofNat]
  refine ⟨by omega, by omega, by omega, by omega, ?_⟩
  intro hf ha hb hs1 hs2
  obtain ⟨hc, ε, he1, he2⟩ := hclose hf ha hb hs1 hs2
  refine ⟨hc, ε, he1, ?_⟩
  rw [← he2]
  omega

/-- Witness for `getTimeBetweenNTP_eq_floor_of_float_elapsed`: one and a half seconds after the
epoch 1700000000 the value is `1.5 * 65536 = 98304`. -/
theorem getTimeBetweenNTP_eq_floor_of_float_elapsed_witness :
    ∃ r : Nat, getTimeBetweenNTP 1700000000 1700000001500000000 = some r ∧
      (r : Int) = ⌊elapsed 1700000000 1700000001500000000 * 65536⌋ % 4294967296 ∧
      r < 4294967296 ∧
      ((r / 65536 : Nat) : Int) = ⌊elapsed 1700000000 1700000001500000000⌋ % 65536 ∧
      ((r % 65536 : Nat) : Int) =
        ⌊(elapsed 1700000000 1700000001500000000 -
          (⌊elapsed 1700000000 1700000001500000000⌋ : ℚ)) * 65536⌋ ∧
      |elapsed 1700000000 1700000001500000000 -
        exactElapsed 1700000000 1700000001500000000| < 1 / 4194304 ∧
      ∃ ε : Int, |ε| ≤ 1 ∧
        (r : Int) =
          (⌊exactElapsed 1700000000 1700000001500000000 * 65536⌋ + ε) % 4294967296 := by
  obtain ⟨r, h1, h2, h3, h4, h5, h6⟩ :=
    getTimeBetweenNTP_eq_floor_of_float_elapsed 1700000000 1700000001500000000
      (by decide!) (by decide!)
  exact ⟨r, h1, h2, h3, h4, h5,
    h6 (by decide!) (by norm_num) (by norm_num) (by decide!) (by decide!)⟩

/-- C4 (as stated) fails: `float64` arithmetic does not give the floor of the exact elapsed
time.  With the epoch `t0 = 1700000000` and the instant 61 microseconds later, the sum
`1700000000 + 0.000061` rounds to `1700000000 + 2^-14`, and the code returns 4, whereas
`floor(0.000061 * 65536) = 3`.  Likewise with the epoch that `getNTPT0` computes at
1700000000.123456 s and the instant 175 microseconds after that: the code returns 77, the exact
value is 76. -/
theorem getTimeBetweenNTP_not_floor_of_exact_elapsed :
    (0 ≤ exactElapsed 1700000000 1700000000000061000 ∧
      getTimeBetweenNTP 1700000000 1700000000000061000 = some 4 ∧
      fixedPointOfExactElapsed 1700000000 1700000000000061000 = 3) ∧
    (0 ≤ exactElapsed (getNTPT0 1700000000123456000) 1700000000123631000 ∧
      getTimeBetweenNTP (getNTPT0 1700000000123456000) 1700000000123631000 = some 77 ∧
      fixedPointOfExactElapsed (getNTPT0 1700000000123456000) 1700000000123631000 = 76) := by
  decide!

/-- C5 (as amended): for a fixed epoch `t0` and two instants `t1 ≤ t2` (with Unix seconds of
magnitude at most `2^53`) whose elapsed times as the code computes them in `float64` satisfy
`0 ≤ tt1` and `tt2 < 65536` (so that the 32-bit mask does not wrap), both calls return a value
and `getTimeBetweenNTP(t0, t1) ≤ getTimeBetweenNTP(t0, t2)`.  When the epoch is a `float64`
between `2^30` and `2^31` and the Unix seconds of the instants are between `2^30` and
`2^31 - 1`, this is the case for all instants at or after `t0` and at most `65536 - 2^-22`
seconds after `t0`. -/
theorem getTimeBetweenNTP_mono (t0 : ℚ) (t1 t2 : Time) (h : t1 ≤ t2)
    (hlo : -2 ^ 53 ≤ Time.Unix t1) (hhi : Time.Unix t2 ≤ 2 ^ 53) :
    (0 ≤ elapsed t0 t1 → elapsed t0 t2 < 65536 →
      ∃ r1 r2 : Nat, getTimeBetweenNTP t0 t1 = some r1 ∧ getTimeBetweenNTP t0 t2 = some r2 ∧
        r1 ≤ r2) ∧
    (float64.round t0 = t0 → 1073741824 ≤ t0 → t0 < 2147483648 →
      1073741824 ≤ Time.Unix t1 → Time.Unix t2 < 2147483647 →
      0 ≤ exactElapsed t0 t1 → exactElapsed t0 t2 ≤ 65536 - 1 / 4194304 →
      ∃ r1 r2 : Nat, getTimeBetweenNTP t0 t1 = some r1 ∧ getTimeBetweenNTP t0 t2 = some r2 ∧
        r1 ≤ r2) := by
  have main : 0 ≤ elapsed t0 t1 → elapsed t0 t2 < 65536 →
      ∃ r1 r2 : Nat, getTimeBetweenNTP t0 t1 = some r1 ∧ getTimeBetweenNTP t0 t2 = some r2 ∧
        r1 ≤ r2 := by
    intro h0 h2
    have hm := elapsed_mono t0 t1 t2 h hlo hhi
    refine ⟨_, _, getTimeBetweenNTP_eq t0 t1 h0 (by linarith),
      getTimeBetweenNTP_eq t0 t2 (by linarith) (by linarith), ?_⟩
    have hfl : ⌊elapsed t0 t1 * 65536⌋ ≤ ⌊elapsed t0 t2 * 65536⌋ :=
      Int.floor_le_floor (by linarith)
    have hlt : ⌊elapsed t0 t2 * 65536⌋ < 4294967296 := by
      apply Int.floor_lt.2
      push_cast
      linarith
    have hN : 0 ≤ ⌊elapsed t0 t1 * 65536⌋ := Int.floor_nonneg.2 (by positivity)
    omega
  refine ⟨main, ?_⟩
  intro hf ha hb hs1 hs2 he1 he2
  have hs : Time.Unix t1 ≤ Time.Unix t2 := by
    unfold Time.Unix
    exact Int.ediv_le_ediv (by norm_num) h
  obtain ⟨c1, k, hk⟩ := elapsed_close t0 t1 hf ha hb hs1 (lt_of_le_of_lt hs hs2)
  obtain ⟨c2, -⟩ := elapsed_close t0 t2 hf ha hb (le_trans hs1 hs) hs2
  apply main
  · -- a multiple of `2^-22` above `-2^-22` is not negative
    obtain ⟨l1, -⟩ := abs_lt.1 c1
    have hkq : (-1 : ℚ) < (k : ℚ) := by
      have : elapsed t0 t1 * 4194304 = (k : ℚ) := by
        rw [hk]
        norm_num
      linarith
    have hk0 : (0 : Int) ≤ k := by
      have : (-1 : Int) < k := by exact_mod_cast hkq
      omega
    rw [hk]
    have : (0 : ℚ) ≤ (k : ℚ) := by exact_mod_cast hk0
    positivity
  · obtain ⟨-, u2⟩ := abs_lt.1 c2
    linarith

/-- Witness for `getTimeBetweenNTP_mono`: one and two seconds after the epoch 1700000000. -/
theorem getTimeBetweenNTP_mono_witness :
    (∃ r1 r2 : Nat, getTimeBetweenNTP 1700000000 1700000001000000000 = some r1 ∧
      getTimeBetweenNTP 1700000000 1700000002000000000 = some r2 ∧ r1 ≤ r2) ∧
    (∃ r1 r2 : Nat, getTimeBetweenNTP 1700000000 1700000001000000000 = some r1 ∧
      getTimeBetweenNTP 1700000000 1700000002000000000 = some r2 ∧ r1 ≤ r2) :=
  ⟨(getTimeBetweenNTP_mono 1700000000 1700000001000000000 1700000002000000000
      (by decide) (by decide!) (by decide!)).1 (by decide!) (by decide!),
   (getTimeBetweenNTP_mono 1700000000 1700000001000000000 1700000002000000000
      (by decide) (by decide!) (by decide!)).2 (by decide!) (by decide!) (by decide!)
      (by decide!) (by decide!) (by decide!) (by decide!)⟩

/-- C5 (as stated) fails at the edge of the interval.  With the epoch that `getNTPT0` computes at
1700000000 s, the instant `t2 = 1700065535.999000` s lies less than 65536 seconds after the
epoch, but its elapsed time rounds to exactly 65536 in `float64`; the fixed-point value `2^32` is
masked to 0, whereas the instant one microsecond earlier yields `2^32 - 1`. -/
theorem getTimeBetweenNTP_not_mono_at_wrap :
    (1700065535998999000 : Time) ≤ 1700065535999000000 ∧
    0 ≤ exactElapsed (getNTPT0 1700000000000000000) 1700065535998999000 ∧
    exactElapsed (getNTPT0 1700000000000000000) 1700065535999000000 < 65536 ∧
    getTimeBetweenNTP (getNTPT0 1700000000000000000) 1700065535998999000 = some 4294967295 ∧
    getTimeBetweenNTP (getNTPT0 1700000000000000000) 1700065535999000000 = some 0 := by
  decide!

/-! ## The acknowledgment collector: empty ticks and lost packets -/

/-- C6: a tick taken while the batch is empty makes no call on the reception model (neither
`Receive` nor `CreateStandardizedFeedback`), sends no feedback report on `received`, and leaves
the state of the loop as it was. -/
theorem buffer_tick_empty_noop (f : fbInferer) (s : bufferState) (hb : s.buf = []) :
    bufferStep f s Event.tick = s ∧
    callsOnTick f s = [] ∧
    (bufferStep f s Event.tick).rxCalls = s.rxCalls ∧
    (bufferStep f s Event.tick).received = s.received := by
  have h : bufferStep f s Event.tick = s := buffer_tick_empty_noop_aux f s hb
  exact ⟨h, callsOnTick_of_nil f s hb, by rw [h], by rw [h]⟩

/-- Witness for `buffer_tick_empty_noop`: a tick right after the loop was entered, with a
reception model that would produce a report whenever queried. -/
theorem buffer_tick_empty_noop_witness :
    bufferStep (newFBInferer (fun _ => (true, [1])) 0) bufferState.init Event.tick =
      bufferState.init ∧
    callsOnTick (newFBInferer (fun _ => (true, [1])) 0) bufferState.init = [] ∧
    (bufferStep (newFBInferer (fun _ => (true, [1])) 0) bufferState.init Event.tick).rxCalls =
      bufferState.init.rxCalls ∧
    (bufferStep (newFBInferer (fun _ => (true, [1])) 0) bufferState.init Event.tick).received =
      bufferState.init.received :=
  buffer_tick_empty_noop (newFBInferer (fun _ => (true, [1])) 0) bufferState.init rfl

/-- C7: a delivery callback that fires with `delivered = false` sends nothing on `acked`; one
that fires with `delivered = true` sends exactly one packet, carrying the SSRC and the sequence
number of the header and the arrival estimate `t + rtt/2` (`t` the time taken before the write);
and the loop passes to the reception model only packets it has taken from `acked`, so that a
packet for which nothing was sent is in no batch submitted later. -/
theorem ackCallback_lost_and_delivered (f : fbInferer) (header : Header) (t : Time) (n : Int) :
    ackCallback f header t n false = [] ∧
    ackCallback f header t n true =
      [{ receiveTS := t + Int.tdiv f.rtt 2, ssrc := header.SSRC, size := n,
         seqNr := header.SequenceNumber }] ∧
    (∀ events ntp ssrc size seqNr ce,
      RxCall.Receive ntp ssrc size seqNr ce ∈ (buffer f events).rxCalls →
      ∃ p, Event.acked p ∈ events ∧ ntp = f.ntpTime p.receiveTS ∧ ssrc = p.ssrc ∧
        size = p.size ∧ seqNr = p.seqNr ∧ ce = 0) :=
  ⟨rfl, rfl, fun events => (buffer_provenance f events).2⟩

/-- Witness for `ackCallback_lost_and_delivered`: sequence number 7 of flow 1, acknowledged and
then submitted on the next tick. -/
theorem ackCallback_lost_and_delivered_witness :
    ackCallback (newFBInferer (fun _ => (false, [])) 0) ⟨1, 7⟩ 5000000000 1212 false = [] ∧
    ackCallback (newFBInferer (fun _ => (false, [])) 0) ⟨1, 7⟩ 5000000000 1212 true =
      [{ receiveTS := 5000000000, ssrc := 1, size := 1212, seqNr := 7 }] ∧
    (∃ p, Event.acked p ∈ [Event.acked ⟨5000000000, 1, 1212, 7⟩, Event.tick] ∧ p.seqNr = 7) := by
  have h := ackCallback_lost_and_delivered (newFBInferer (fun _ => (false, [])) 0) ⟨1, 7⟩
    5000000000 1212
  refine ⟨h.1, h.2.1, ?_⟩
  obtain ⟨p, hp, -, -, -, hs, -⟩ := h.2.2 [Event.acked ⟨5000000000, 1, 1212, 7⟩, Event.tick]
    ((newFBInferer (fun _ => (false, [])) 0).ntpTime 5000000000) 1 1212 7 0
    (by simp [buffer, bufferStep, bufferState.init, sortSlice, insertionSortLessFunc, insertLeft,
      receiveCalls])
  exact ⟨p, hp, hs.symm⟩

end rtc

/-! ## Rate adaptation -/

namespace udp

open rtc (GoError)
open utils (Attributes ReadResult rtcpPacket BindRTCPReader)

/-- C8: starting from a fresh `gstWriter` (no rate applied, `targetBitrate = 0`), after any
sequence of estimates, the next estimate `b` is applied (recorded in `targetBitrate`, logged, and
passed to `SetBitRate` as `b/1000` kbit/s) if and only if it is positive and differs from the
estimate applied last; otherwise nothing changes.  The estimates 500000, 500000, 750000 cause
exactly the two rate changes to 500 and 750 kbit/s. -/
theorem applyEstimate_iff_positive_and_changed (P : Type) (bs : List Int) (b : Int) :
    ((0 < b ∧ (afterEstimates P bs).logged.getLast? ≠ some b) →
      applyEstimate (afterEstimates P bs) b =
        { afterEstimates P bs with
          targetBitrate := b
          logged := (afterEstimates P bs).logged ++ [b]
          setBitRateCalls := (afterEstimates P bs).setBitRateCalls ++ [(b / 1000).toNat] }) ∧
    (¬ (0 < b ∧ (afterEstimates P bs).logged.getLast? ≠ some b) →
      applyEstimate (afterEstimates P bs) b = afterEstimates P bs) ∧
    (afterEstimates P [500000, 500000, 750000]).logged = [500000, 750000] ∧
    (afterEstimates P [500000, 500000, 750000]).setBitRateCalls = [500, 750] := by
  obtain ⟨h1, h2, -⟩ := afterEstimates_invariant P bs
  have key : (0 < b ∧ (afterEstimates P bs).logged.getLast? ≠ some b) ↔
      (b ≠ (afterEstimates P bs).targetBitrate ∧ 0 < b) := by
    rw [h1]
    constructor
    · rintro ⟨hpos, hne⟩
      refine ⟨?_, hpos⟩
      intro hb
      cases hl : (afterEstimates P bs).logged.getLast? with
      | none =>
        rw [hl] at hb
        simp at hb
        omega
      | some x =>
        rw [hl] at hb hne
        simp at hb
        exact hne (by rw [hb])
    · rintro ⟨hne, hpos⟩
      refine ⟨hpos, ?_⟩
      intro hl
      rw [hl] at hne
      simp at hne
  refine ⟨?_, ?_, ?_, ?_⟩
  · intro h
    have h' := key.1 h
    have hdiv : Int.tdiv b 1000 = b / 1000 := by
      rw [Int.tdiv_eq_ediv (le_of_lt h'.2) (by decide)]
    simp [applyEstimate, h'.1, h'.2, hdiv]
  · intro h
    have h' : ¬ (b ≠ (afterEstimates P bs).targetBitrate ∧ 0 < b) := fun hh => h (key.2 hh)
    unfold applyEstimate
    rw [if_neg]
    simpa using h'
  · simp [afterEstimates, applyEstimate, gstWriter.init]
  · simp [afterEstimates, applyEstimate, gstWriter.init]
    decide

/-- Witness for `applyEstimate_iff_positive_and_changed`: after 500000 and 500000 the estimate
750000 is applied, and after 500000 the estimate 500000 changes nothing. -/
theorem applyEstimate_iff_positive_and_changed_witness :
    applyEstimate (afterEstimates Unit [500000, 500000]) 750000 =
      { afterEstimates Unit [500000, 500000] with
        targetBitrate := 750000
        logged := (afterEstimates Unit [500000, 500000]).logged ++ [750000]
        setBitRateCalls :=
          (afterEstimates Unit [500000, 500000]).setBitRateCalls ++
            [(750000 / 1000 : Int).toNat] } ∧
    applyEstimate (afterEstimates Unit [500000]) 500000 = afterEstimates Unit [500000] :=
  ⟨(applyEstimate_iff_positive_and_changed Unit [500000, 500000] 750000).1
      ⟨by decide, by simp [afterEstimates, applyEstimate, gstWriter.init]⟩,
   (applyEstimate_iff_positive_and_changed Unit [500000] 500000).2.1
      (by simp [afterEstimates, applyEstimate, gstWriter.init])⟩

end udp

/-! ## Errors of the transport write -/

namespace rtc

/-- C9: when the transport write returns an error, `rtpWriterFunc` returns that error, with the
byte count of the write, if the error is a network error that is not temporary or if its text is
the end-of-stream sentinel; any other error is suppressed, the write being reported as
successful with the byte count of the write. -/
theorem rtpWriterFunc_error_propagation
    (WriteRTPNotify : Header → List Nat → Int × Option GoError)
    (header : Header) (payload : List Nat) :
    (∀ n e, WriteRTPNotify header payload = (n, some e) →
      ((e.isNetError = true ∧ e.Temporary = false) ∨ e.Error = "Application error 0x0: eos") →
      rtpWriterFunc WriteRTPNotify header payload = (n, some e)) ∧
    (∀ n e, WriteRTPNotify header payload = (n, some e) →
      ¬ ((e.isNetError = true ∧ e.Temporary = false) ∨ e.Error = "Application error 0x0: eos") →
      rtpWriterFunc WriteRTPNotify header payload = (n, none)) ∧
    (∀ n, WriteRTPNotify header payload = (n, none) →
      rtpWriterFunc WriteRTPNotify header payload = (n, none)) := by
  refine ⟨?_, ?_, ?_⟩
  · intro n e hw hf
    simp only [rtpWriterFunc, hw]
    rcases hf with ⟨h1, h2⟩ | h
    · simp [h1, h2]
    · simp [h]
  · intro n e hw hf
    simp only [rtpWriterFunc, hw]
    rw [not_or] at hf
    obtain ⟨h1, h2⟩ := hf
    have h3 : ¬ (e.isNetError = true ∧ e.Temporary = false) := h1
    cases hn : e.isNetError <;> cases ht : e.Temporary <;> simp_all
  · intro n hw
    simp [rtpWriterFunc, hw]

/-- Witness for `rtpWriterFunc_error_propagation`: a write failing with a network error that is
not temporary, and a write of 1212 bytes failing with a temporary one. -/
theorem rtpWriterFunc_error_propagation_witness :
    rtpWriterFunc (fun _ _ => (0, some ⟨true, false, "write: connection refused"⟩)) ⟨1, 7⟩ [] =
      (0, some ⟨true, false, "write: connection refused"⟩) ∧
    rtpWriterFunc (fun _ _ => (1212, some ⟨true, true, "i/o timeout"⟩)) ⟨1, 7⟩ [] =
      (1212, none) :=
  ⟨(rtpWriterFunc_error_propagation
      (fun _ _ => (0, some ⟨true, false, "write: connection refused"⟩)) ⟨1, 7⟩ []).1 0
      ⟨true, false, "write: connection refused"⟩ rfl (Or.inl ⟨rfl, rfl⟩),
   (rtpWriterFunc_error_propagation
      (fun _ _ => (1212, some ⟨true, true, "i/o timeout"⟩)) ⟨1, 7⟩ []).2.1 1212
      ⟨true, true, "i/o timeout"⟩ rfl (by decide)⟩

end rtc

/-! ## Malformed feedback -/

namespace udp

open rtc (GoError)
open utils (Attributes ReadResult rtcpPacket BindRTCPReader)

/-- C10: when the parser `rtcp.Unmarshal` rejects the bytes of an inbound feedback packet, the
recorder's feedback reader returns the parse error with byte count 0 and sends no event on
`rtcpIn`; and the loop of `acceptFeedback`, reading through it, returns that error at once: its
state is unchanged and the datagrams that follow are not processed. -/
theorem malformed_feedback_stops_reader {P : Type}
    (Unmarshal : List Nat → Except GoError (List P)) (since : Nat → rtc.Duration)
    (reader : List Nat → Attributes → ReadResult) (b : List Nat) (err : GoError)
    (hread : (reader b []).err = none)
    (hrej : Unmarshal (b.take (reader b []).n.toNat) = Except.error err) :
    BindRTCPReader Unmarshal since reader b [] = ({ n := 0, attr := none, err := some err }, []) ∧
    (∀ (hasCC : Bool) (g : gstWriter P) (bitrate : Except GoError Int) (rest : List Iteration),
      acceptFeedback (BindRTCPReader Unmarshal since reader) hasCC g
        ({ read := Except.ok b, bitrate := bitrate } :: rest) = (g, some err)) := by
  have h : BindRTCPReader Unmarshal since reader b [] =
      ({ n := 0, attr := none, err := some err }, []) := by
    simp [BindRTCPReader, hread, hrej]
  refine ⟨h, ?_⟩
  intro hasCC g bitrate rest
  simp [acceptFeedback, h]

/-- Witness for `malformed_feedback_stops_reader`: a parser that rejects buffers shorter than
the four bytes of an RTCP header, and a datagram of three bytes. -/
theorem malformed_feedback_stops_reader_witness :
    BindRTCPReader
      (fun b : List Nat =>
        if b.length < 4 then Except.error ⟨false, false, "rtcp: packet too short"⟩
        else (Except.ok [b] : Except GoError (List (List Nat))))
      (fun _ => 0) baseReader [128, 200, 0] [] =
        ({ n := 0, attr := none, err := some ⟨false, false, "rtcp: packet too short"⟩ }, []) ∧
    (∀ (hasCC : Bool) (g : gstWriter (List Nat)) (bitrate : Except GoError Int)
        (rest : List Iteration),
      acceptFeedback
        (BindRTCPReader
          (fun b : List Nat =>
            if b.length < 4 then Except.error ⟨false, false, "rtcp: packet too short"⟩
            else (Except.ok [b] : Except GoError (List (List Nat))))
          (fun _ => 0) baseReader) hasCC g
        ({ read := Except.ok [128, 200, 0], bitrate := bitrate } :: rest) =
          (g, some ⟨false, false, "rtcp: packet too short"⟩)) :=
  malformed_feedback_stops_reader _ (fun _ => 0) baseReader [128, 200, 0]
    ⟨false, false, "rtcp: packet too short"⟩ rfl rfl

end udp

/-! ## The telemetry recorder: data-packet lines -/

namespace utils

/-- C11: for every data-packet event the loop writes, to the sink of its direction, exactly one
line: the fields `in:` or `out:`, `RTP`, the receive time in whole milliseconds, the payload type
in decimal, the SSRC in lower-case hexadecimal, the sequence number, the timestamp, the marker
flag as `1` or `0`, and the payload length, joined by single tabs and followed by one newline.
No field holds a tab or a newline, so the text has exactly eight tabs and one newline, which is
its last character. -/
theorem rtp_line_format {P : Type} (rawLen : P → Option Nat) (typeName : P → String)
    (p : rtpPacket) :
    loopWrite rawLen typeName (LoopEvent.rtpIn p) =
      (Sink.rtpInStream, String.intercalate "\t" (rtpLineFields "in:" p) ++ "\n") ∧
    loopWrite rawLen typeName (LoopEvent.rtpOut p) =
      (Sink.rtpOutStream, String.intercalate "\t" (rtpLineFields "out:" p) ++ "\n") ∧
    (∀ direction, direction = "in:" ∨ direction = "out:" →
      (∀ field ∈ rtpLineFields direction p, '\t' ∉ field.data ∧ '\n' ∉ field.data) ∧
      (String.intercalate "\t" (rtpLineFields direction p) ++ "\n").data.count '\t' = 8 ∧
      (String.intercalate "\t" (rtpLineFields direction p) ++ "\n").data.count '\n' = 1 ∧
      (String.intercalate "\t" (rtpLineFields direction p) ++ "\n").data.getLast? =
        some '\n') ∧
    (∀ c ∈ (fmtDecimal (Milliseconds p.receiveTime)).data, c ∈ "-0123456789".data) ∧
    (∀ c ∈ (fmtDecimal p.PayloadType).data, c ∈ "0123456789".data) ∧
    (∀ c ∈ (fmtHex p.SSRC).data, c ∈ "0123456789abcdef".data) ∧
    (∀ c ∈ (fmtDecimal p.SequenceNumber).data, c ∈ "0123456789".data) ∧
    (∀ c ∈ (fmtDecimal p.Timestamp).data, c ∈ "0123456789".data) ∧
    (∀ c ∈ (fmtDecimal p.Payload.length).data, c ∈ "0123456789".data) := by
  have hin : ("in:\t" : String) = "in:" ++ "\t" := by decide
  have hout : ("out:\t" : String) = "out:" ++ "\t" := by decide
  refine ⟨?_, ?_, ?_, fmtDecimal_digits _, fmtDecimal_nat_digits _, fmtHex_digits _,
    fmtDecimal_nat_digits _, fmtDecimal_nat_digits _, fmtDecimal_nat_digits _⟩
  · simp only [loopWrite]
    rw [hin, rtp_line_eq]
  · simp only [loopWrite]
    rw [hout, rtp_line_eq]
  · intro direction hd
    have hclean := rtpLineFields_clean direction p hd
    refine ⟨hclean, ?_⟩
    have hm : ∀ field, field ∈ rtpLineFields direction p →
        '\t' ∉ field.data ∧ '\n' ∉ field.data := hclean
    unfold rtpLineFields at hm ⊢
    exact nine_fields_line _ _ _ _ _ _ _ _ _ (hm _ (by simp)) (hm _ (by simp)) (hm _ (by simp))
      (hm _ (by simp)) (hm _ (by simp)) (hm _ (by simp)) (hm _ (by simp)) (hm _ (by simp))
      (hm _ (by simp))

/-- Witness for `rtp_line_format`: an outgoing packet of payload type 96 with SSRC `deadbeef`,
sequence number 4711, timestamp 90000, the marker set and three bytes of payload, observed
1234.56789 ms after the recorder was created. -/
theorem rtp_line_format_witness :
    loopWrite (fun _ : Unit => none) (fun _ => "")
        (LoopEvent.rtpOut ⟨96, 3735928559, 4711, 90000, true, [1, 2, 3], 1234567890⟩) =
      (Sink.rtpOutStream, "out:\tRTP\t1234\t96\tdeadbeef\t4711\t90000\t1\t3\n") := by
  rw [(rtp_line_format (fun _ : Unit => none) (fun _ => "")
    ⟨96, 3735928559, 4711, 90000, true, [1, 2, 3], 1234567890⟩).2.1]
  decide

end utils

/-! ## The acknowledgment collector: each packet is submitted once -/

namespace rtc

/-- C12: for every sequence of enqueue and tick events taken by the loop, and whatever the
reception model answers, the batch is empty after a tick; before it, the batch holds exactly the
packets enqueued since the previous tick, and the tick passes exactly these to `Receive`, each
once.  Hence the `Receive` calls made in the whole run are those of the packets enqueued before
the last tick, each once: a packet is submitted on the first tick after it was enqueued and on no
later tick. -/
theorem buffer_submits_each_packet_once (f : fbInferer) (events : List Event)
    (hc : Event.cancel ∉ events) :
    (buffer f (events ++ [Event.tick])).buf = [] ∧
    (buffer f events).buf = ackedPkts (afterLastTick events) ∧
    (receivesOf (callsOnTick f (buffer f events))).Perm
      (receiveCalls f (ackedPkts (afterLastTick events))) ∧
    (receivesOf (buffer f events).rxCalls).Perm
      (receiveCalls f (ackedPkts (uptoLastTick events))) ∧
    (∀ c, (receivesOf (buffer f events).rxCalls).count c =
      (receiveCalls f (ackedPkts (uptoLastTick events))).count c) ∧
    (receivesOf (buffer f events).rxCalls).length = (ackedPkts (uptoLastTick events)).length := by
  obtain ⟨hr, hb, hp⟩ := buffer_batch_invariant f events hc
  have hc2 : Event.cancel ∉ events ++ [Event.tick] := by
    intro h
    rcases List.mem_append.1 h with h | h
    · exact hc h
    · simp at h
  obtain ⟨-, hb2, -⟩ := buffer_batch_invariant f (events ++ [Event.tick]) hc2
  refine ⟨?_, hb, ?_, hp, fun c => hp.count_eq c, ?_⟩
  · rw [hb2, afterLastTick_snoc]
    rfl
  · rw [← hb]
    exact receivesOf_callsOnTick f (buffer f events) hr
  · rw [hp.length_eq]
    simp [receiveCalls]

/-- Witness for `buffer_submits_each_packet_once`: the packets 5 and 3 are enqueued, a tick
follows, the packet 4 is enqueued, and two ticks follow. -/
theorem buffer_submits_each_packet_once_witness :
    (buffer (newFBInferer (fun _ => (true, [1])) 0)
      ([Event.acked ⟨10, 1, 1200, 5⟩, Event.acked ⟨20, 1, 1200, 3⟩, Event.tick,
        Event.acked ⟨30, 1, 1200, 4⟩, Event.tick, Event.tick] ++ [Event.tick])).buf = [] ∧
    (receivesOf (buffer (newFBInferer (fun _ => (true, [1])) 0)
      [Event.acked ⟨10, 1, 1200, 5⟩, Event.acked ⟨20, 1, 1200, 3⟩, Event.tick,
        Event.acked ⟨30, 1, 1200, 4⟩, Event.tick, Event.tick]).rxCalls).length = 3 := by
  obtain ⟨h1, -, -, -, -, h6⟩ :=
    buffer_submits_each_packet_once (newFBInferer (fun _ => (true, [1])) 0)
      [Event.acked ⟨10, 1, 1200, 5⟩, Event.acked ⟨20, 1, 1200, 3⟩, Event.tick,
        Event.acked ⟨30, 1, 1200, 4⟩, Event.tick, Event.tick] (by decide)
  exact ⟨h1, by rw [h6]; decide⟩

end rtc
